import Mathlib

/-!
Verification development for the editpanel orchestrator core.

The definitions below are a shallow embedding, translated from the
JavaScript sources of the repository:

* `src/electron/orchestrator/recipes.js` — `${...}` interpolation
  (`getByPath`, `interpolateValue`);
* the contracts module (`WORKERS`, `COMMAND_OWNER`, `COMMAND_SCHEMAS`,
  `toRequestEnvelope`, `validateRequestEnvelope`,
  `normalizeResponseEnvelope`);
* the control-plane module (`DEFAULT_PREFERENCES`, `loadPreferences`,
  `applyConcurrencyFromPreferences`);
* `src/electron/orchestrator/step_cache.js` — `StepCacheStore`;
* the job-engine module (`JobEngine`): `submit`, `enqueueJob`,
  `scheduleRunnableSteps`, `drainOwnerQueue`, `runStep`, `finalize`,
  `cancel`, `resumeRecoverableJobs`, modelled as a transition system.

JavaScript dynamic values are modelled by `JSVal`; machine-level
peculiarities that the orchestrator never relies on (IEEE NaN, string
character indexing beyond what the code touches) are noted where they are
approximated.  Wall-clock timestamps, event emission and the append-only
persistence log are side effects that do not influence any of the
properties below and are not part of the state.
-/
/-- A JavaScript value as the orchestrator manipulates it (JSON payloads,
preferences, interpolation contexts).  Numbers are modelled as integers:
every number the orchestrator itself produces or compares in the embedded
code paths is integral. -/
inductive JSVal where
  | null
  | undef
  | bool (b : Bool)
  | num (n : Int)
  | str (s : String)
  | arr (elems : List JSVal)
  | obj (fields : List (String × JSVal))

/-- JavaScript truthiness (`Boolean(v)`): `false`, `0`, `""`, `null`,
`undefined` are falsy; arrays and objects are always truthy. -/
def JSVal.truthy : JSVal → Bool
  | .null => false
  | JSVal.undef => false
  | .bool b => b
  | .num n => n != 0
  | .str s => s != ""
  | .arr _ => true
  | .obj _ => true

/-- JavaScript `typeof v` (note `typeof null === "object"`). -/
def JSVal.typeofJS : JSVal → String
  | .null => "object"
  | JSVal.undef => "undefined"
  | .bool _ => "boolean"
  | .num _ => "number"
  | .str _ => "string"
  | .arr _ => "object"
  | .obj _ => "object"

/-- JavaScript `a || b`. -/
def jsOr (a b : JSVal) : JSVal :=
  if a.truthy then a else b

mutual

/-- JavaScript `String(v)` on the values of the model: arrays join their
elements with commas (`null`/`undefined` elements become empty), plain
objects print as `[object Object]`. -/
def JSVal.jsToString : JSVal → String
  | .null => "null"
  | JSVal.undef => "undefined"
  | .bool b => if b then "true" else "false"
  | .num n => toString n
  | .str s => s
  | .arr elems => String.intercalate "," (jsJoinParts elems)
  | .obj _ => "[object Object]"

/-- Element conversion used by `Array.prototype.join`. -/
def jsJoinParts : List JSVal → List String
  | [] => []
  | .null :: rest => "" :: jsJoinParts rest
  | JSVal.undef :: rest => "" :: jsJoinParts rest
  | v :: rest => v.jsToString :: jsJoinParts rest

end

/-- First-match association-list lookup, the model of reading a property
from a plain JavaScript object (whose keys are unique). -/
def jGetL : List (String × JSVal) → String → JSVal
  | [], _ => JSVal.undef
  | kv :: rest, key => if kv.1 = key then kv.2 else jGetL rest key

/-- JavaScript `key in obj` on a plain object. -/
def hasKeyL : List (String × JSVal) → String → Bool
  | [], _ => false
  | kv :: rest, key => kv.1 = key || hasKeyL rest key

/-- Property access `v[key]` for the value forms the orchestrator reads:
object fields, array `length`/canonical indices, string `length`/indices.
Accessing a property of `null`/`undefined` is guarded at every call site in
the source (so it yields `undefined` here, matching `?.`). -/
def JSVal.jGet : JSVal → String → JSVal
  | .obj fields, key => jGetL fields key
  | .arr elems, key =>
    if key = "length" then .num elems.length
    else
      match key.toNat? with
      | some i => if key = toString i then elems.getD i JSVal.undef else JSVal.undef
      | none => JSVal.undef
  | .str s, key =>
    if key = "length" then .num s.length
    else
      match key.toNat? with
      | some i =>
        if key = toString i then
          match s.data.get? i with
          | some c => .str (String.singleton c)
          | none => JSVal.undef
        else JSVal.undef
      | none => JSVal.undef
  | _, _ => JSVal.undef

/-- The character `{` (written via its code point to keep string scanning
helpers readable). -/
def lbraceChar : Char := Char.ofNat 123

/-- The character `}`. -/
def rbraceChar : Char := Char.ofNat 125

/-!
## Interpolation (`src/electron/orchestrator/recipes.js`)

`VAR_PATTERN` in the source is the anchored regex matching a string that is
exactly a `${path}` placeholder; the embedded form is the global regex
replacing every `${path}` occurrence.  Both are compiled here to explicit
character scans: a match consists of a dollar, an open brace, a nonempty
run of non-`}` characters (the dotted path), and a closing brace.
-/
/-- Scan for the maximal run of non-`}` characters followed by a closing
brace (the regex fragment matched after the opening `${` of
`VAR_PATTERN`): returns the run and the remainder after the brace, `none`
when no closing brace follows (greedy matching with backtracking cannot
succeed then, because every shorter run would end at a non-`}` character). -/
def scanTok : List Char → Option (List Char × List Char)
  | [] => none
  | c :: cs =>
    if c = rbraceChar then some ([], cs)
    else (scanTok cs).map (fun p => (c :: p.1, p.2))

/-- The `[^...]+` capture of `VAR_PATTERN` requires a nonempty run. -/
def takeTok (cs : List Char) : Option (List Char × List Char) :=
  match scanTok cs with
  | some (tok, rest) => if tok.isEmpty then none else some (tok, rest)
  | none => none

/-- Model of `String.prototype.split` with separator `"."` (used by
`getByPath`); structural so that it evaluates by kernel reduction. -/
def splitOnDot : List Char → List (List Char)
  | [] => [[]]
  | c :: rest =>
    match splitOnDot rest with
    | piece :: pieces =>
      if c = Char.ofNat 46 then [] :: piece :: pieces else (c :: piece) :: pieces
    | [] => [[c]]

/-- `dottedPath.split('.')` as strings. -/
def splitDots (s : String) : List String :=
  (splitOnDot s.data).map String.mk

/-- `getByPath(source, dottedPath)` from `recipes.js`: walk a `.`-separated
path, yielding `undefined` as soon as the accumulator is
`null`/`undefined`. -/
def getByPath (source : JSVal) (dottedPath : String) : JSVal :=
  if dottedPath = "" then source
  else
    (splitDots dottedPath).foldl
      (fun acc key =>
        match acc with
        | .null => JSVal.undef
        | JSVal.undef => JSVal.undef
        | v => v.jGet key)
      source

/-- Replacement text for one embedded `${tok}` occurrence:
`resolved === undefined || resolved === null ? '' : String(resolved)`. -/
def stringifyResolvedChars (context : JSVal) (tok : List Char) : List Char :=
  match getByPath context (String.mk tok) with
  | JSVal.undef => []
  | .null => []
  | v => v.jsToString.data

/-- Scan for the global embedded-placeholder replacement of
`interpolateValue` (leftmost-first, non-overlapping; on a non-match the
scan resumes at the next character).  The `fuel` argument only serves
structural recursion; each step consumes at least one character, so
`fuel = cs.length` (as used by `replaceChars`) never runs out. -/
def replaceCharsAux (context : JSVal) : Nat → List Char → List Char
  | 0, cs => cs
  | _ + 1, [] => []
  | _ + 1, [c] => [c]
  | fuel + 1, c :: d :: cs2 =>
    if c = '$' then
      if d = lbraceChar then
        match takeTok cs2 with
        | some (tok, rest) =>
          stringifyResolvedChars context tok ++ replaceCharsAux context fuel rest
        | none => c :: replaceCharsAux context fuel (d :: cs2)
      else c :: replaceCharsAux context fuel (d :: cs2)
    else c :: replaceCharsAux context fuel (d :: cs2)

/-- Embedded-form interpolation over a character list. -/
def replaceChars (context : JSVal) (cs : List Char) : List Char :=
  replaceCharsAux context cs.length cs

/-- Match of the anchored `VAR_PATTERN` regex: the whole string is exactly
one `${path}` placeholder; returns the path. -/
def wholeMatch (s : String) : Option String :=
  match s.data with
  | c :: d :: rest =>
    if c = '$' && d = lbraceChar then
      match takeTok rest with
      | some (tok, rest2) => if rest2.isEmpty then some (String.mk tok) else none
      | none => none
    else none
  | _ => none

mutual

/-- `interpolateValue(value, context)` from `recipes.js`: a string that is
exactly one placeholder resolves by value (preserving the type of the
leaf); other strings substitute every embedded placeholder by string
conversion; arrays and mappings recurse; everything else is returned
unchanged. -/
def interpolateValue : JSVal → JSVal → JSVal
  | .str s, context =>
    (match wholeMatch s with
     | some tok => getByPath context tok
     | none => .str (String.mk (replaceChars context s.data)))
  | .arr elems, context => .arr (interpolateList elems context)
  | .obj fields, context => .obj (interpolateFields fields context)
  | v, _ => v

/-- `value.map(entry => interpolateValue(entry, context))`. -/
def interpolateList : List JSVal → JSVal → List JSVal
  | [], _ => []
  | v :: rest, context => interpolateValue v context :: interpolateList rest context

/-- Interpolation of an object, entry by entry. -/
def interpolateFields : List (String × JSVal) → JSVal → List (String × JSVal)
  | [], _ => []
  | kv :: rest, context =>
    (kv.1, interpolateValue kv.2 context) :: interpolateFields rest context

end

/-- Does the character list contain an embedded `${...}` match?  (Mirrors
the scan of `replaceCharsAux`; this predicate is independent of any
context.) -/
def hasEmbedded : List Char → Bool
  | [] => false
  | [_] => false
  | c :: d :: cs2 =>
    if c = '$' then
      if d = lbraceChar then
        match takeTok cs2 with
        | some _ => true
        | none => hasEmbedded (d :: cs2)
      else hasEmbedded (d :: cs2)
    else hasEmbedded (d :: cs2)

mutual

/-- A value is placeholder-free when none of its string leaves contains a
`${...}` occurrence.  Interpolation is the identity on such values. -/
def placeholderFree : JSVal → Bool
  | .str s => !(hasEmbedded s.data)
  | .arr elems => placeholderFreeList elems
  | .obj fields => placeholderFreeFields fields
  | _ => true

/-- List form of `placeholderFree`. -/
def placeholderFreeList : List JSVal → Bool
  | [] => true
  | v :: rest => placeholderFree v && placeholderFreeList rest

/-- Field form of `placeholderFree`. -/
def placeholderFreeFields : List (String × JSVal) → Bool
  | [] => true
  | kv :: rest => placeholderFree kv.2 && placeholderFreeFields rest

end

/-- The literal string `${t}` (a dollar, an open brace, `t`, a closing
brace), used to build concrete interpolation inputs. -/
def dollarStr (t : String) : String :=
  String.mk ('$' :: lbraceChar :: (t.data ++ [rbraceChar]))

/-- Context for the idempotence counterexample: `a` resolves to the literal
text `${b}`, and `b` resolves to `X`. -/
def ctxC8 : JSVal := .obj [("a", .str (dollarStr "b")), ("b", .str "X")]

/-!
## Envelope & router (contracts module)

`WORKERS`, `COMMAND_OWNER`, `COMMAND_SCHEMAS`, `toRequestEnvelope`,
`validateRequestEnvelope` and `normalizeResponseEnvelope`, translated
field by field.  `randomUUID()` results are passed in as the `freshId` /
`freshTraceId` parameters (they are opaque to all the logic).
-/
/-- Association-list lookup with string keys (the model of reading a fixed
configuration object such as `COMMAND_OWNER`). -/
def assocLookup {α : Type} : List (String × α) → String → Option α
  | [], _ => none
  | kv :: rest, key => if kv.1 = key then some kv.2 else assocLookup rest key

/-- `Object.values(WORKERS)`. -/
def WORKERS_values : List String := ["resolve", "media", "platform"]

/-- The closed `COMMAND_OWNER` table, in source order. -/
def COMMAND_OWNER : List (String × String) :=
  [("connect", "resolve"), ("context", "resolve"), ("add_marker", "resolve"),
   ("start_render", "resolve"), ("stop_render", "resolve"),
   ("create_project_bins", "resolve"), ("update_text", "resolve"),
   ("goto", "resolve"),
   ("transcribe", "media"), ("transcribe_folder", "media"),
   ("test_cuda", "media"),
   ("spellcheck", "resolve"), ("lp_base_export", "resolve"),
   ("shutdown", "resolve"),
   ("leaderpass_auth", "platform"), ("leaderpass_upload", "platform")]

/-- `commandOwner(cmd)`: `COMMAND_OWNER[cmd] || null`, with `none` for
`null`. -/
def commandOwner (cmd : String) : Option String :=
  assocLookup COMMAND_OWNER cmd

/-- A per-command payload schema: required field names and expected
`typeof` strings for optionally-typed fields. -/
structure CommandSchema where
  required : List String
  types : List (String × String)

/-- The `COMMAND_SCHEMAS` table, in source order. -/
def COMMAND_SCHEMAS : List (String × CommandSchema) :=
  [("connect", ⟨[], []⟩), ("context", ⟨[], []⟩), ("add_marker", ⟨[], []⟩),
   ("start_render", ⟨[], []⟩), ("stop_render", ⟨[], []⟩),
   ("create_project_bins", ⟨[], []⟩), ("update_text", ⟨[], []⟩),
   ("goto", ⟨[], []⟩), ("transcribe", ⟨[], []⟩),
   ("transcribe_folder",
     ⟨["folder_path"],
      [("folder_path", "string"), ("use_gpu", "boolean"), ("engine", "string")]⟩),
   ("test_cuda", ⟨[], []⟩), ("spellcheck", ⟨[], []⟩),
   ("lp_base_export", ⟨[], []⟩), ("shutdown", ⟨[], []⟩),
   ("leaderpass_auth", ⟨[], [("force", "boolean"), ("force_refresh", "boolean")]⟩),
   ("leaderpass_upload",
     ⟨["file_path"], [("file_path", "string"), ("chunk_size", "number")]⟩)]

/-- The three error categories carried across the worker boundary
(`UserError`, `RetryableError`, `FatalError`). -/
inductive ErrCategory where
  | userError
  | retryableError
  | fatalError
deriving DecidableEq

/-- An error normalized to `{category, message}` (the `details` field is
opaque and unused by every embedded code path). -/
structure NormalizedError where
  category : ErrCategory
  message : String
deriving DecidableEq

/-- The `UserError` values thrown by `validateRequestEnvelope` (every
throw in that function constructs a `UserError`). -/
structure UserError where
  message : String
deriving DecidableEq

/-- Spread of a value into an object literal (`{...v}`): objects
contribute their entries, arrays and strings contribute indexed entries,
primitives contribute nothing. -/
def spreadSource (v : JSVal) : List (String × JSVal) :=
  match v with
  | .obj fields => fields
  | .arr elems => elems.enum.map (fun p => (toString p.1, p.2))
  | .str s => s.data.enum.map (fun p => (toString p.1, .str (String.singleton p.2)))
  | _ => []

/-- JavaScript property assignment `obj[key] = v` on a plain object:
replace the existing entry in place, otherwise append. -/
def objSet : List (String × JSVal) → String → JSVal → List (String × JSVal)
  | [], key, v => [(key, v)]
  | kv :: rest, key, v =>
    if kv.1 = key then (key, v) :: rest else kv :: objSet rest key v

/-- Sequential assignment of all entries of `src` over `base` — the
semantics of `{...base, ...src}` and of copy loops. -/
def objAssign (base src : List (String × JSVal)) : List (String × JSVal) :=
  src.foldl (fun acc kv => objSet acc kv.1 kv.2) base

/-- The five canonical envelope fields. -/
def reservedKeys : List String := ["id", "worker", "cmd", "payload", "trace_id"]

/-- `commandOwner(request.cmd)` as the envelope's fallback worker value
(property keys are string-coerced; a missing owner is `null`). -/
def ownerAsJS (cmdVal : JSVal) : JSVal :=
  match commandOwner cmdVal.jsToString with
  | some w => .str w
  | none => .null

/-- The top-level fields of a raw request: a bare string is `{cmd: raw}`,
anything else is spread (`{...raw}`). -/
def requestFieldsOf (rawRequest : JSVal) : List (String × JSVal) :=
  match rawRequest with
  | .str s => [("cmd", .str s)]
  | v => spreadSource v

/-- The explicit `payload` object of a raw request
(`request.payload && typeof request.payload === 'object' ? {...request.payload} : {}`;
note an array passes the `typeof` test and spreads to indexed entries). -/
def envelopePayloadBase (request : List (String × JSVal)) : List (String × JSVal) :=
  match jGetL request "payload" with
  | .obj fields => fields
  | .arr elems => spreadSource (.arr elems)
  | _ => []

/-- The canonical payload: every top-level field outside the five
canonical ones is assigned over the explicit payload (last wins). -/
def envelopePayload (request : List (String × JSVal)) : List (String × JSVal) :=
  request.foldl
    (fun acc kv => if reservedKeys.contains kv.1 then acc else objSet acc kv.1 kv.2)
    (envelopePayloadBase request)

/-- `toRequestEnvelope(rawRequest, explicitWorker)`: canonicalize a raw
request.  The worker is `explicitWorker || raw.worker || commandOwner(raw.cmd)`;
missing `id` / `trace_id` get the fresh opaque values. -/
def toRequestEnvelope (rawRequest : JSVal) (explicitWorker : JSVal)
    (freshId freshTraceId : String) : JSVal :=
  let request := requestFieldsOf rawRequest
  let cmdVal := jGetL request "cmd"
  .obj [("id", jsOr (jGetL request "id") (.str freshId)),
        ("worker", jsOr explicitWorker (jsOr (jGetL request "worker") (ownerAsJS cmdVal))),
        ("cmd", cmdVal),
        ("payload", .obj (envelopePayload request)),
        ("trace_id", jsOr (jGetL request "trace_id") (.str freshTraceId))]

/-- Is the value a member of the worker enum
(`Object.values(WORKERS).includes(v)`, strict equality)? -/
def workerEnumHas (v : JSVal) : Bool :=
  match v with
  | .str s => WORKERS_values.contains s
  | _ => false

/-- Strict equality of the envelope worker against the owner string. -/
def workerEq (v : JSVal) (owner : String) : Bool :=
  match v with
  | .str s => s = owner
  | _ => false

/-- The per-command schema pass of `validateRequestEnvelope`: first
missing required field, then first present field of the wrong scalar
type; `none` when the payload passes. -/
def schemaCheck (c : String) (pfields : List (String × JSVal)) : Option UserError :=
  match assocLookup COMMAND_SCHEMAS c with
  | none => none
  | some sch =>
    match sch.required.find? (fun f => !(hasKeyL pfields f)) with
    | some f => some ⟨"command " ++ c ++ " missing required payload field: " ++ f⟩
    | none =>
      match sch.types.find?
          (fun ft => hasKeyL pfields ft.1 && (jGetL pfields ft.1).typeofJS != ft.2) with
      | some ft =>
        some ⟨"command " ++ c ++ " payload field " ++ ft.1 ++ " must be " ++ ft.2⟩
      | none => none

/-!
`validateRequestEnvelope` is a single straight-line function in the
source; it is split below into its successive check phases (same checks,
same order, same messages) so that each phase can be reasoned about
separately.
-/
/-- Misroute check, payload-shape check and schema pass. -/
def validateRoutePhase (fields : List (String × JSVal)) (workerVal : JSVal)
    (c owner : String) : Except UserError Unit :=
  if !(workerEq workerVal owner) then
    .error ⟨"misrouted command " ++ c ++ ": expected worker=" ++ owner
      ++ ", got worker=" ++ workerVal.jsToString⟩
  else
    match jGetL fields "payload" with
    | .obj pfields =>
      (match schemaCheck c pfields with
       | some e => .error e
       | none => .ok ())
    | _ => .error ⟨"payload must be an object"⟩

/-- Command checks: non-empty string, known owner. -/
def validateCmdPhase (fields : List (String × JSVal)) (workerVal : JSVal) :
    Except UserError Unit :=
  match jGetL fields "cmd" with
  | .str c =>
    if c = "" then .error ⟨"cmd must be a non-empty string"⟩
    else
      match commandOwner c with
      | none => .error ⟨"unknown command: " ++ c⟩
      | some owner => validateRoutePhase fields workerVal c owner
  | _ => .error ⟨"cmd must be a non-empty string"⟩

/-- Worker-enum check (`workerVal` is `envelope.worker`). -/
def validateWorkerPhase (fields : List (String × JSVal)) : Except UserError Unit :=
  if !(workerEnumHas (jGetL fields "worker")) then
    .error ⟨"unknown worker: " ++ (jGetL fields "worker").jsToString⟩
  else validateCmdPhase fields (jGetL fields "worker")

/-- `validateRequestEnvelope(env)`: fails with a `UserError` on a missing
canonical field, a worker outside the enum, an empty or non-string or
unknown `cmd`, a misrouted command (`commandOwner(cmd) !== worker`), a
non-mapping payload, or a schema violation. -/
def validateRequestEnvelope (envelope : JSVal) : Except UserError Unit :=
  match envelope with
  | .obj fields =>
    (match reservedKeys.find? (fun k => !(hasKeyL fields k)) with
     | some k => .error ⟨"request envelope missing required field: " ++ k⟩
     | none => validateWorkerPhase fields)
  | _ => .error ⟨"request envelope must be an object"⟩

/-- A normalized response (`{id, ok, data, error, metrics}`); only the
latency metric is modelled, the rest of `metrics` is opaque. -/
structure RespEnvelope where
  id : JSVal
  ok : Bool
  data : JSVal
  error : Option NormalizedError
  latency : Option Int

/-- A normalized event (`{event, trace_id, data, error, code, message,
metrics}`). -/
structure EventEnvelope where
  event : JSVal
  traceId : JSVal
  data : JSVal
  error : JSVal
  code : JSVal
  message : JSVal
  latency : Option Int

/-- Result of `normalizeResponseEnvelope`. -/
inductive Normalized where
  | event (e : EventEnvelope)
  | response (r : RespEnvelope)

/-- Optional string parameter as a JavaScript value (`undefined` when
absent). -/
def optStr : Option String → JSVal
  | some s => .str s
  | none => JSVal.undef

/-- `v === false`. -/
def isFalseVal : JSVal → Bool
  | .bool false => true
  | _ => false

/-- The message of `new UserError(arg)` as read back by `normalizeError`:
`String(arg)`, with an empty result falling back to `'unknown error'`. -/
def errMessageOf (arg : JSVal) : String :=
  let m := arg.jsToString
  if m = "" then "unknown error" else m

/-- `normalizeResponseEnvelope(message, defaultId, startedAt)`: an
incoming message with a truthy `event` field becomes an event envelope; a
message with `ok === false` becomes a failed response whose error is
normalized from a fresh `UserError` — category `UserError` regardless of
any category the worker put on the wire; anything else becomes a
successful response whose `data` falls back to the whole message
(legacy wire shape). -/
def normalizeResponseEnvelope (message : JSVal) (defaultId : Option String)
    (freshTraceId : String) (nowMs : Int) (startedAt : Option Int) : Normalized :=
  let latency : Option Int := startedAt.map (fun t => nowMs - t)
  if (message.jGet "event").truthy then
    .event { event := message.jGet "event",
             traceId := jsOr (message.jGet "trace_id")
               (jsOr (optStr defaultId) (.str freshTraceId)),
             data := jsOr (message.jGet "data") .null,
             error := jsOr (message.jGet "error") .null,
             code := jsOr (message.jGet "code") .null,
             message := jsOr (message.jGet "message") .null,
             latency := latency }
  else if isFalseVal (message.jGet "ok") then
    .response { id := jsOr (message.jGet "id") (jsOr (optStr defaultId) .null),
                ok := false,
                data := .null,
                error := some ⟨.userError,
                  errMessageOf (jsOr (message.jGet "error") (.str "worker error"))⟩,
                latency := latency }
  else
    .response { id := jsOr (message.jGet "id") (jsOr (optStr defaultId) .null),
                ok := true,
                data := (match message.jGet "data" with
                         | JSVal.undef => message
                         | d => d),
                error := none,
                latency := latency }

/-!
## Control plane: preferences

`DEFAULT_PREFERENCES`, `loadPreferences` and
`applyConcurrencyFromPreferences` from the control-plane module.  File
input is abstracted as `PrefsFile`: the file may be missing, unreadable or
unparsable (both land in the `catch` and yield the defaults), or parsed to
a value.
-/
/-- `DEFAULT_PREFERENCES.worker_concurrency`. -/
def DEFAULT_WORKER_CONCURRENCY : List (String × JSVal) :=
  [("resolve", .num 1), ("media", .num 2), ("platform", .num 2)]

/-- `DEFAULT_PREFERENCES` (`clone` is the identity on the model's pure
values). -/
def DEFAULT_PREFERENCES : JSVal :=
  .obj [("recipe_defaults", .obj []),
        ("worker_concurrency", .obj DEFAULT_WORKER_CONCURRENCY)]

/-- The state of the preferences file as `loadPreferences` observes it. -/
inductive PrefsFile where
  | missing
  | parseError
  | parsed (v : JSVal)

/-- `ControlPlane.loadPreferences()`: a missing file or a `JSON.parse`
failure yields the defaults; otherwise `recipe_defaults` is kept when it
is a truthy object, and `worker_concurrency` is the defaults spread-merged
with the stored mapping. -/
def loadPreferences : PrefsFile → JSVal
  | .missing => DEFAULT_PREFERENCES
  | .parseError => DEFAULT_PREFERENCES
  | .parsed v =>
    .obj [("recipe_defaults",
            if (v.jGet "recipe_defaults").typeofJS == "object"
                && (v.jGet "recipe_defaults").truthy
            then v.jGet "recipe_defaults" else .obj []),
          ("worker_concurrency",
            .obj (objAssign DEFAULT_WORKER_CONCURRENCY
              (spreadSource (jsOr (v.jGet "worker_concurrency") (.obj [])))))]

/-- The value a sequence of JavaScript assignments leaves under a key:
the last entry of `src` with that key, if any. -/
def lastLookup : List (String × JSVal) → String → Option JSVal
  | [], _ => none
  | kv :: tl, k =>
    match lastLookup tl k with
    | some v => some v
    | none => if kv.1 = k then some kv.2 else none

/-- JavaScript `Number(v)` restricted to the integral values the
orchestrator stores; `none` stands for NaN.  (String numerals are decimal
integers only; array/object coercion is not modelled — no embedded code
path feeds those to `Number`.) -/
def jsToNumberInt : JSVal → Option Int
  | .num n => some n
  | .bool b => some (if b then 1 else 0)
  | .null => some 0
  | JSVal.undef => none
  | .str s => if s = "" then some 0 else s.toInt?
  | .arr _ => none
  | .obj _ => none

/-- The public method set of the `JobEngine` class, read off its class
body in the job-engine module: `constructor`, `subscribe`, `emitJobEvent`,
`persist`, `listJobs`, `getJob`, `submit`, `enqueueJob`,
`scheduleRunnableSteps`, `drainOwnerQueue`, `runStep`, `finalize`,
`cancel`, `resumeRecoverableJobs` — and nothing else. -/
def jobEngineMethods : List String :=
  ["constructor", "subscribe", "emitJobEvent", "persist", "listJobs",
   "getJob", "submit", "enqueueJob", "scheduleRunnableSteps",
   "drainOwnerQueue", "runStep", "finalize", "cancel",
   "resumeRecoverableJobs"]

/-- `ControlPlane.applyConcurrencyFromPreferences()`: computes the target
`{resolve: Number(c.resolve || 1), media: Number(c.media || 2),
platform: Number(c.platform || 2)}` and then calls
`this.jobEngine.setConcurrency(target)`.  Calling a method that the
receiver does not define raises a `TypeError` in JavaScript; the method
lookup is modelled against `jobEngineMethods`. -/
def applyConcurrencyFromPreferences (prefs : JSVal) :
    Except String (Option Int × Option Int × Option Int) :=
  let c := jsOr (prefs.jGet "worker_concurrency") (.obj [])
  let target := (jsToNumberInt (jsOr (c.jGet "resolve") (.num 1)),
                 jsToNumberInt (jsOr (c.jGet "media") (.num 2)),
                 jsToNumberInt (jsOr (c.jGet "platform") (.num 2)))
  if jobEngineMethods.contains "setConcurrency" then .ok target
  else .error "TypeError: this.jobEngine.setConcurrency is not a function"

/-!
## Step cache (`src/electron/orchestrator/step_cache.js`)

`StepCacheStore` holds `{entries: {fingerprint → entry}}`; the file-backed
load/save is a side effect outside the claims.  Entries are JavaScript
values (an entry hydrated from disk may be arbitrary, hence the `!entry`
guard in `get`).
-/
/-- The in-memory state of a `StepCacheStore`. -/
structure StepCacheState where
  entries : List (String × JSVal)

/-- The expiry test of `get`:
`ttlMs > 0 && Date.now() - Number(entry.created_at || 0) > ttlMs`
(a NaN `created_at` compares false, hence `none → false`). -/
def entryExpired (entry : JSVal) (nowMs ttlMs : Int) : Bool :=
  decide (0 < ttlMs) &&
    (match jsToNumberInt (jsOr (entry.jGet "created_at") (.num 0)) with
     | some created => decide (nowMs - created > ttlMs)
     | none => false)

/-- `StepCacheStore.get(fingerprint, ttlMs = 0)`: `null` when absent or
falsy, `null` when expired under a positive `ttlMs`, the stored entry
otherwise.  The method never mutates the store. -/
def stepCacheGet (st : StepCacheState) (nowMs : Int) (fingerprint : String)
    (ttlMs : Int) : Option JSVal :=
  match assocLookup st.entries fingerprint with
  | none => none
  | some entry =>
    if !entry.truthy then none
    else if entryExpired entry nowMs ttlMs then none
    else some entry

/-- `StepCacheStore.set(fingerprint, metadata)`: stores
`{created_at: Date.now(), ...metadata}` under the fingerprint. -/
def stepCacheSet (st : StepCacheState) (nowMs : Int) (fingerprint : String)
    (metadata : JSVal) : StepCacheState :=
  ⟨objSet st.entries fingerprint
    (.obj (objAssign [("created_at", .num nowMs)] (spreadSource metadata)))⟩

/-- `StepCacheStore.invalidate(fingerprint = null)`: a falsy fingerprint
clears every entry, otherwise the one entry is deleted. -/
def stepCacheInvalidate (st : StepCacheState) (fingerprint : JSVal) :
    StepCacheState :=
  if !fingerprint.truthy then ⟨[]⟩
  else ⟨st.entries.filter (fun kv => kv.1 != fingerprint.jsToString)⟩

/-!
## Job engine (job-engine module)

The engine is modelled as a transition system.  JavaScript's cooperative
concurrency makes every synchronous run-to-completion block atomic; the
atomic blocks of the engine are:

* `submit(plan)` — job creation, `enqueueJob`, `scheduleRunnableSteps`
  (which drains queues and starts steps synchronously up to each await);
* the continuation of `runStep` when the step's request settles —
  success/catch handling, the `finally` block, `drainOwnerQueue`,
  `scheduleRunnableSteps`;
* `cancel(jobId)`;
* `resumeRecoverableJobs()`.

A `runStep` invocation whose synchronous prefix has executed (step marked
`running`, attempt bumped, active count incremented, request written to
the worker) is an in-flight `Task`; its completion is the `deliver`
transition.  Persistence (`persist`), event emission and timestamps are
side effects that no embedded property depends on and are not part of the
state.  The persistence log is empty at construction (fresh hydration).
-/
/-- The worker enum. -/
inductive Worker where
  | resolve
  | media
  | platform
deriving DecidableEq, Repr

/-- A per-worker record (`queuesByOwner`, `activeCounts`, `concurrency`). -/
structure PerWorker (α : Type) where
  resolve : α
  media : α
  platform : α
deriving DecidableEq

/-- Read the field of one worker. -/
def PerWorker.get {α : Type} (p : PerWorker α) : Worker → α
  | .resolve => p.resolve
  | .media => p.media
  | .platform => p.platform

/-- Replace the field of one worker. -/
def PerWorker.set {α : Type} (p : PerWorker α) : Worker → α → PerWorker α
  | .resolve, v => { p with resolve := v }
  | .media, v => { p with media := v }
  | .platform, v => { p with platform := v }

/-- Job and step states (`JOB_STATES` plus the `'dispatching'` literal the
source uses for steps; jobs never take `dispatching`). -/
inductive StepSt where
  | queued
  | dispatching
  | running
  | succeeded
  | failed
  | canceled
deriving DecidableEq, Repr

/-- Membership in `[succeeded, failed, canceled]`. -/
def StepSt.isTerminal : StepSt → Bool
  | .succeeded => true
  | .failed => true
  | .canceled => true
  | _ => false

/-- One step of a job (`cancellation: {requested}` is `cancelRequested`;
`started_at`/`finished_at` are timestamps outside the model). -/
structure StepState where
  step_id : Nat
  cmd : String
  worker : Worker
  payload : JSVal
  depends_on : List Nat
  state : StepSt
  attempt : Nat
  output : Option JSVal
  error : Option String
  cancelRequested : Bool
  cachePolicy : JSVal

/-- A job (`retry_policy.max_attempts` is `retryMaxAttempts`;
`created_at`/`started_at`/`finished_at` and `outputs` are outside the
model, `errors` keeps the pushed `{step_id, error.message}` pairs). -/
structure Job where
  job_id : Nat
  preset_id : Option String
  idempotency_key : Option String
  retryMaxAttempts : Nat
  timeout : Int
  state : StepSt
  steps : List StepState
  errors : List (Nat × String)

/-- An in-flight `runStep` request: the step was marked `running`, the
active count of `w` was incremented and the wire request was written. -/
structure StepTask where
  jid : Nat
  sid : Nat
  w : Worker
deriving DecidableEq, Repr

/-- The engine state: the job index, the idempotency index, the per-worker
FIFO queues of `{job_id, step_id}` items, the per-worker active counts and
concurrency limits, and the in-flight requests. -/
structure EngineState where
  jobs : List Job
  idemIndex : List (String × Nat)
  queues : PerWorker (List (Nat × Nat))
  active : PerWorker Nat
  concurrency : PerWorker Nat
  tasks : List StepTask

/-- `Math.max(1, Number(options.x || d))` for the constructor options
(absent or zero falls back to the default). -/
def concOption (o : Option Nat) (d : Nat) : Nat :=
  max 1 (match o with
         | some n => if n = 0 then d else n
         | none => d)

/-- The engine constructor with a fresh persistence log: no jobs, empty
queues, zero active counts, `concurrency = {resolve: 1,
media: max(1, mediaConcurrency || 2), platform: max(1, platformConcurrency || 2)}`. -/
def engineInit (mediaConcurrency platformConcurrency : Option Nat) : EngineState :=
  { jobs := [], idemIndex := [],
    queues := ⟨[], [], []⟩, active := ⟨0, 0, 0⟩,
    concurrency := ⟨1, concOption mediaConcurrency 2, concOption platformConcurrency 2⟩,
    tasks := [] }

/-- `this.jobs.get(jobId)`. -/
def findJob (s : EngineState) (jid : Nat) : Option Job :=
  s.jobs.find? (fun j => j.job_id == jid)

/-- In-place mutation of the job with the given id (`persist` re-stores the
same object under the same key). -/
def updateJob (s : EngineState) (jid : Nat) (f : Job → Job) : EngineState :=
  { s with jobs := s.jobs.map (fun j => if j.job_id == jid then f j else j) }

/-- In-place mutation of one step of a job. -/
def updateStepIn (j : Job) (sid : Nat) (f : StepState → StepState) : Job :=
  { j with steps := j.steps.map (fun st => if st.step_id == sid then f st else st) }

/-- In-place mutation of one step addressed by job and step id. -/
def updateStep (s : EngineState) (jid sid : Nat) (f : StepState → StepState) :
    EngineState :=
  updateJob s jid (fun j => updateStepIn j sid f)

/-- `job.steps.find(entry => entry.step_id === stepId)` after a job lookup. -/
def findStep (s : EngineState) (jid sid : Nat) : Option StepState :=
  match findJob s jid with
  | none => none
  | some j => j.steps.find? (fun st => st.step_id == sid)

/-- `JobEngine.finalize(job, state)`: a job already terminal is never
re-finalized; otherwise the job state becomes the target (and the terminal
event is emitted). -/
def finalizeF (s : EngineState) (jid : Nat) (target : StepSt) : EngineState :=
  match findJob s jid with
  | none => s
  | some j =>
    if j.state.isTerminal then s
    else updateJob s jid (fun j0 => { j0 with state := target })

/-- The synchronous prefix of `JobEngine.runStep(jobId, stepId)`: look up
the job and step (silently returning when either is missing), mark the
step `running`, increment `attempt`, increment the worker's active count,
and send the request (`sendStepRequest({worker, cmd, ...payload,
trace_id})`) — recorded as the in-flight `Task`. -/
def runStepStart (s : EngineState) (jid sid : Nat) : EngineState :=
  match findJob s jid with
  | none => s
  | some j =>
    match j.steps.find? (fun st => st.step_id == sid) with
    | none => s
    | some st =>
      let s1 := updateStep s jid sid
        (fun x => { x with state := .running, attempt := x.attempt + 1 })
      let s2 :=
        { s1 with
          active := s1.active.set st.worker (s1.active.get st.worker + 1) }
      { s2 with tasks := ⟨jid, sid, st.worker⟩ :: s2.tasks }

/-- `this.concurrency[worker] || 1`. -/
def drainLimit (s : EngineState) (w : Worker) : Nat :=
  match s.concurrency.get w with
  | 0 => 1
  | n => n

/-- The `while` loop of `drainOwnerQueue`: while the active count is below
the limit and the queue is nonempty, shift the head item and run it.  The
fuel only serves structural recursion: `runStepStart` never pushes, so
each iteration shortens the queue by one and the initial queue length
(used by `drainOwnerQueue`) is always enough. -/
def drainAux (w : Worker) : Nat → EngineState → EngineState
  | 0, s => s
  | fuel + 1, s =>
    if s.active.get w < drainLimit s w then
      match s.queues.get w with
      | [] => s
      | item :: rest =>
        drainAux w fuel
          (runStepStart { s with queues := s.queues.set w rest } item.1 item.2)
    else s

/-- `JobEngine.drainOwnerQueue(worker)`. -/
def drainOwnerQueue (s : EngineState) (w : Worker) : EngineState :=
  drainAux w (s.queues.get w).length s

/-- The body of the `queued.forEach(step => ...)` loop of
`scheduleRunnableSteps`: if every dependency of the captured step is in
the captured completed set, mark it `dispatching` (unconditionally, as the
source does on the live object), push `{job_id, step_id}` on its worker's
queue and drain that queue. -/
def scheduleStepBody (jid : Nat) (completed : List Nat) (s0 : EngineState)
    (st : StepState) : EngineState :=
  if st.depends_on.all (fun dep => completed.contains dep) then
    let s1 := updateStep s0 jid st.step_id (fun x => { x with state := .dispatching })
    let s2 :=
      { s1 with
        queues := s1.queues.set st.worker (s1.queues.get st.worker ++ [(jid, st.step_id)]) }
    drainOwnerQueue s2 st.worker
  else s0

/-- `JobEngine.scheduleRunnableSteps(job)`: compute the completed set and
the failure/cancellation flags once; finalize `failed` before `canceled`;
finalize `succeeded` when no step is `queued`; otherwise dispatch every
ready captured queued step in order. -/
def scheduleRunnableSteps (s : EngineState) (jid : Nat) : EngineState :=
  match findJob s jid with
  | none => s
  | some j =>
    let completed := (j.steps.filter (fun st => st.state == .succeeded)).map
      (fun st => st.step_id)
    if j.steps.any (fun st => st.state == .failed) then finalizeF s jid .failed
    else if j.steps.any (fun st => st.state == .canceled) then
      finalizeF s jid .canceled
    else
      let queuedSteps := j.steps.filter (fun st => st.state == .queued)
      if queuedSteps.isEmpty then finalizeF s jid .succeeded
      else queuedSteps.foldl (scheduleStepBody jid completed) s

/-- `JobEngine.enqueueJob(jobId)`: ignore missing or terminal jobs; move a
`queued` job to `running` (stamping `started_at`), then schedule. -/
def enqueueJob (s : EngineState) (jid : Nat) : EngineState :=
  match findJob s jid with
  | none => s
  | some j =>
    if j.state == .queued || j.state == .running then
      scheduleRunnableSteps
        (if j.state == .queued
         then updateJob s jid (fun j0 => { j0 with state := .running })
         else s) jid
    else s

/-- A compiled plan step (`buildPlan` output). -/
structure PlanStep where
  step_id : Nat
  cmd : String
  worker : Worker
  payload : JSVal
  depends_on : List Nat
  cachePolicy : JSVal

/-- A compiled plan.  `job_id` stands for the fresh `randomUUID()` the
engine assigns at submit (plans do not set `job_id` in the source). -/
structure Plan where
  job_id : Nat
  preset_id : Option String
  idempotency_key : Option String
  retryMaxAttempts : Nat
  timeout : Int
  steps : List PlanStep

/-- Step initialization at submit: `queued`, `attempt = 0`, no output, no
error, cancellation not requested. -/
def initStep (ps : PlanStep) : StepState :=
  { step_id := ps.step_id, cmd := ps.cmd, worker := ps.worker,
    payload := ps.payload, depends_on := ps.depends_on,
    state := .queued, attempt := 0, output := none, error := none,
    cancelRequested := false, cachePolicy := ps.cachePolicy }

/-- Job creation of `submit` (fresh id: appended to the index), the
idempotency-index insertion, persist, the `queued` event, `enqueueJob`. -/
def submitNew (s : EngineState) (p : Plan) : EngineState :=
  let job : Job :=
    { job_id := p.job_id, preset_id := p.preset_id,
      idempotency_key := p.idempotency_key,
      retryMaxAttempts := p.retryMaxAttempts, timeout := p.timeout,
      state := .queued, steps := p.steps.map initStep, errors := [] }
  let s1 := match p.idempotency_key with
    | some key => { s with idemIndex := (key, p.job_id) :: s.idemIndex }
    | none => s
  enqueueJob { s1 with jobs := s1.jobs ++ [job] } p.job_id

/-- `JobEngine.submit(plan)`: a plan whose `idempotency_key` is already in
the index returns the existing job unchanged; otherwise a fresh job is
created and enqueued. -/
def submitF (s : EngineState) (p : Plan) : EngineState :=
  match p.idempotency_key with
  | some key => if (assocLookup s.idemIndex key).isSome then s else submitNew s p
  | none => submitNew s p

/-- How an in-flight request settles: the supervisor resolves with an
`ok: true` response carrying `data`, or the awaited promise rejects (an
`ok: false` worker reply, a `RetryableError` from `sendRequest`, a
pending-map flush on worker exit or health failure, or the step timeout).
The engine itself re-throws non-`ok` responses, so both failure shapes
land in the same `catch`. -/
inductive Outcome where
  | success (data : JSVal)
  | failure (err : NormalizedError)

/-- The no-budget branch of the `catch` block of `runStep`: mark the step
`failed`, record the error message, and push `{step_id, error}` onto
`job.errors`. -/
def failStepIn (sid : Nat) (msg : String) (j0 : Job) : Job :=
  let j1 := updateStepIn j0 sid
    (fun x => { x with state := .failed, error := some msg })
  { j1 with errors := j1.errors ++ [(sid, msg)] }

/-- The `try`/`catch` state transition of `runStep` when the request
settles: on success mark `succeeded` and store the output (and push to
`job.outputs`); on failure mark `canceled` when cancellation was
requested, re-queue while `attempt < Math.max(1, max_attempts || 1)`, and
otherwise mark `failed` and push to `job.errors`.  Only
`cancellation.requested` and the attempt budget are consulted — the
error's category is never read. -/
def deliverCore (s : EngineState) (jid sid : Nat) (oc : Outcome) : EngineState :=
  match findJob s jid with
  | none => s
  | some j =>
    match j.steps.find? (fun st => st.step_id == sid) with
    | none => s
    | some st =>
      match oc with
      | .success data =>
        updateStep s jid sid
          (fun x => { x with state := .succeeded, output := some data })
      | .failure err =>
        if st.cancelRequested then
          updateStep s jid sid
            (fun x => { x with state := .canceled, error := some "canceled" })
        else if st.attempt < max 1 j.retryMaxAttempts then
          updateStep s jid sid
            (fun x => { x with state := .queued, error := some err.message })
        else
          updateJob s jid (failStepIn sid err.message)

/-- The `finally` block of `runStep`: decrement the worker's active count
(`Math.max(0, n - 1)` is truncated subtraction), drain that worker's
queue, re-run scheduling for the job. -/
def deliverFinally (s : EngineState) (jid sid : Nat) : EngineState :=
  match findStep s jid sid with
  | none => s
  | some st =>
    scheduleRunnableSteps
      (drainOwnerQueue
        { s with active := s.active.set st.worker (s.active.get st.worker - 1) }
        st.worker)
      jid

/-- Settling of an in-flight request: the pending awaiter is consumed
(the task is removed), then the `try`/`catch` transition and the `finally`
block run as one synchronous continuation. -/
def deliverF (s : EngineState) (jid sid : Nat) (oc : Outcome) : EngineState :=
  deliverFinally
    (deliverCore
      { s with tasks := s.tasks.eraseP (fun t => t.jid == jid && t.sid == sid) }
      jid sid oc)
    jid sid

/-- The per-step pass of `cancel`: steps in
`{queued, running, dispatching}` get `cancellation.requested = true`, and
`queued`/`dispatching` steps are additionally moved to `canceled`
immediately.  (The queue items of `dispatching` steps are NOT removed.) -/
def cancelStepPass (st : StepState) : StepState :=
  if st.state == .queued || st.state == .running || st.state == .dispatching then
    let st1 := { st with cancelRequested := true }
    if st1.state == .queued || st1.state == .dispatching then
      { st1 with state := .canceled }
    else st1
  else st

/-- `JobEngine.cancel(jobId)` (returning `{ok: false}` on a missing job is
the identity on the state). -/
def cancelF (s : EngineState) (jid : Nat) : EngineState :=
  match findJob s jid with
  | none => s
  | some _ =>
    scheduleRunnableSteps
      (updateJob s jid (fun j0 => { j0 with steps := j0.steps.map cancelStepPass }))
      jid

/-- The per-step pass of `resumeRecoverableJobs`: demote `running` and
`dispatching` steps back to `queued` (timestamps cleared). -/
def resumeStepPass (st : StepState) : StepState :=
  if st.state == .running || st.state == .dispatching then
    { st with state := .queued }
  else st

/-- `JobEngine.resumeRecoverableJobs()`: for every job in
`{queued, running}` (iterating the job index), demote its
`running`/`dispatching` steps and enqueue it. -/
def resumeF (s : EngineState) : EngineState :=
  (s.jobs.map (fun j => j.job_id)).foldl
    (fun s0 jid =>
      match findJob s0 jid with
      | none => s0
      | some j =>
        if j.state == .queued || j.state == .running then
          enqueueJob
            (updateJob s0 jid
              (fun j0 => { j0 with steps := j0.steps.map resumeStepPass }))
            jid
        else s0)
    s

/-- The atomic transitions of the engine.  `submit` carries the guarantees
the source provides elsewhere: the fresh `randomUUID()` job id collides
with no existing job, and plan step ids are unique within a plan (recipe
validation rejects duplicate step ids).  `deliver` fires only for an
in-flight request. -/
inductive EngineStep : EngineState → EngineState → Prop where
  | submit (s : EngineState) (p : Plan)
      (hfresh : findJob s p.job_id = none)
      (hnodup : (p.steps.map (fun ps => ps.step_id)).Nodup) :
      EngineStep s (submitF s p)
  | deliver (s : EngineState) (t : StepTask) (oc : Outcome) (ht : t ∈ s.tasks) :
      EngineStep s (deliverF s t.jid t.sid oc)
  | cancel (s : EngineState) (jid : Nat) : EngineStep s (cancelF s jid)
  | resume (s : EngineState) : EngineStep s (resumeF s)

/-- States reachable from a freshly constructed engine. -/
inductive EngineReachable : EngineState → Prop where
  | init (mc pc : Option Nat) : EngineReachable (engineInit mc pc)
  | step {s s2 : EngineState} :
      EngineReachable s → EngineStep s s2 → EngineReachable s2

/-- A one-step plan on the media worker, parametrized by the step's
`cache_policy` (as compiled into plans by `buildPlan`). -/
def planOneMedia (policy : JSVal) : Plan :=
  { job_id := 1, preset_id := some "transcribe_folder",
    idempotency_key := none, retryMaxAttempts := 1, timeout := 0,
    steps := [{ step_id := 1, cmd := "transcribe_folder", worker := .media,
                payload := .obj [("folder_path", .str "/tmp/audio")],
                depends_on := [], cachePolicy := policy }] }

/-- A one-step media plan with a retry budget of two attempts. -/
def planRetryTwo : Plan :=
  { job_id := 1, preset_id := some "transcribe_folder",
    idempotency_key := none, retryMaxAttempts := 2, timeout := 0,
    steps := [{ step_id := 1, cmd := "transcribe_folder", worker := .media,
                payload := .obj [("folder_path", .str "/tmp/audio")],
                depends_on := [], cachePolicy := .obj [("enabled", .bool false)] }] }

/-- A two-parallel-step media plan (media concurrency defaults to 2). -/
def planTwoMedia : Plan :=
  { job_id := 1, preset_id := some "transcribe_folder",
    idempotency_key := none, retryMaxAttempts := 1, timeout := 0,
    steps := [{ step_id := 1, cmd := "transcribe_folder", worker := .media,
                payload := .obj [], depends_on := [],
                cachePolicy := .obj [("enabled", .bool false)] },
              { step_id := 2, cmd := "transcribe_folder", worker := .media,
                payload := .obj [], depends_on := [],
                cachePolicy := .obj [("enabled", .bool false)] }] }

/-- Two independent steps on the resolve worker (concurrency 1): the first
is started, the second stays enqueued behind the limit. -/
def planTwoResolve : Plan :=
  { job_id := 1, preset_id := some "prepare_project",
    idempotency_key := none, retryMaxAttempts := 1, timeout := 0,
    steps := [{ step_id := 1, cmd := "connect", worker := .resolve,
                payload := .obj [], depends_on := [],
                cachePolicy := .obj [("enabled", .bool false)] },
              { step_id := 2, cmd := "connect", worker := .resolve,
                payload := .obj [], depends_on := [],
                cachePolicy := .obj [("enabled", .bool false)] }] }

/-- The step of the witness state for `retry_decision_ignores_category`. -/
def stepC2W : StepState :=
  { step_id := 1, cmd := "transcribe_folder", worker := .media,
    payload := .obj [], depends_on := [], state := .running, attempt := 1,
    output := none, error := none, cancelRequested := false,
    cachePolicy := .obj [] }

/-- The job of the witness state for `retry_decision_ignores_category`. -/
def jobC2W : Job :=
  { job_id := 1, preset_id := none, idempotency_key := none,
    retryMaxAttempts := 2, timeout := 0, state := .running,
    steps := [stepC2W], errors := [] }

/-- The witness state: one running media step with an in-flight request. -/
def stateC2W : EngineState :=
  { jobs := [jobC2W], idemIndex := [], queues := ⟨[], [], []⟩,
    active := ⟨0, 1, 0⟩, concurrency := ⟨1, 2, 2⟩, tasks := [⟨1, 1, .media⟩] }

/-- The worker of the step addressed by `(jid, sid)`, when it exists. -/
def stepWorker (s : EngineState) (jid sid : Nat) : Option Worker :=
  (findStep s jid sid).map StepState.worker

/-- The number of in-flight requests on worker `w`. -/
def countT (s : EngineState) (w : Worker) : Nat :=
  s.tasks.countP (fun t => t.w == w)

/-- The `(job_id, step_id)` addresses of the steps in state `running` on
worker `w`. -/
def runningPairs (s : EngineState) (w : Worker) : List (Nat × Nat) :=
  s.jobs.flatMap (fun j =>
    (j.steps.filter (fun st => st.state == .running && st.worker == w)).map
      (fun st => (j.job_id, st.step_id)))

/-- The number of steps in state `running` on worker `w`. -/
def runningCount (s : EngineState) (w : Worker) : Nat :=
  (runningPairs s w).length

/-- The engine invariant: concurrency limits are positive, the active
count of each worker equals its number of in-flight requests, active
counts respect the limits, job ids and per-job step ids are duplicate
free, every in-flight request addresses an existing step of its worker,
every `running` step has an in-flight request, and every queue item
addresses an existing step of the queue's worker. -/
structure EngineInv (s : EngineState) : Prop where
  conc_pos : ∀ w, 1 ≤ s.concurrency.get w
  active_eq : ∀ w, s.active.get w = countT s w
  active_le : ∀ w, s.active.get w ≤ s.concurrency.get w
  job_nodup : (s.jobs.map (fun j => j.job_id)).Nodup
  steps_nodup : ∀ j ∈ s.jobs, (j.steps.map (fun st => st.step_id)).Nodup
  task_step : ∀ t ∈ s.tasks, stepWorker s t.jid t.sid = some t.w
  running_task : ∀ j ∈ s.jobs, ∀ st ∈ j.steps, st.state = .running →
    ∃ t ∈ s.tasks, t.jid = j.job_id ∧ t.sid = st.step_id
  queue_worker : ∀ w, ∀ item ∈ s.queues.get w,
    stepWorker s item.1 item.2 = some w

/-- Two states agree on the worker of every addressed step. -/
def WFrame (s s2 : EngineState) : Prop :=
  ∀ a b, stepWorker s2 a b = stepWorker s a b

/-- The step mutation of the synchronous prefix of `runStep`. -/
def runG : StepState → StepState :=
  fun x => { x with state := .running, attempt := x.attempt + 1 }

/-- The step mutation of the dispatch pass of `scheduleRunnableSteps`. -/
def dispG : StepState → StepState :=
  fun x => { x with state := .dispatching }

theorem scanTok_length_lt {cs tok rest} (h : scanTok cs = some (tok, rest)) :
    rest.length < cs.length := by
  induction cs generalizing tok rest with
  | nil => simp [scanTok] at h
  | cons c cs ih =>
    unfold scanTok at h
    by_cases hc : c = rbraceChar
    · rw [if_pos hc] at h
      simp only [Option.some.injEq, Prod.mk.injEq] at h
      obtain ⟨-, h2⟩ := h
      subst h2
      simp
    · rw [if_neg hc] at h
      rw [Option.map_eq_some'] at h
      obtain ⟨⟨t, r⟩, hs, hp⟩ := h
      simp only [Prod.mk.injEq] at hp
      obtain ⟨-, h2⟩ := hp
      subst h2
      have := ih hs
      simp only [List.length_cons]
      omega

theorem takeTok_length_lt {cs tok rest} (h : takeTok cs = some (tok, rest)) :
    rest.length < cs.length := by
  unfold takeTok at h
  cases hs : scanTok cs with
  | none => rw [hs] at h; simp at h
  | some p =>
    obtain ⟨t, r⟩ := p
    rw [hs] at h
    by_cases he : t.isEmpty
    · simp [he] at h
    · simp only [he, Bool.false_eq_true, if_false, Option.some.injEq,
        Prod.mk.injEq] at h
      obtain ⟨-, h2⟩ := h
      subst h2
      exact scanTok_length_lt hs

theorem wholeMatch_hasEmbedded {s : String} {tok : String}
    (h : wholeMatch s = some tok) : hasEmbedded s.data = true := by
  unfold wholeMatch at h
  split at h
  next c d rest hdata =>
    rw [hdata]
    unfold hasEmbedded
    split at h
    next hcd =>
      simp only [Bool.and_eq_true, decide_eq_true_eq] at hcd
      rw [if_pos hcd.1, if_pos hcd.2]
      split at h
      next tok0 rest2 heq =>
        rw [heq]
      next heq => simp at h
    next => simp at h
  next => simp at h

theorem replaceCharsAux_id {context : JSVal} :
    ∀ (fuel : Nat) (cs : List Char), hasEmbedded cs = false →
      replaceCharsAux context fuel cs = cs := by
  intro fuel
  induction fuel with
  | zero => intro cs _; rfl
  | succ n ih =>
    intro cs h
    match cs with
    | [] => rfl
    | [c] => rfl
    | c :: d :: cs2 =>
      unfold replaceCharsAux
      unfold hasEmbedded at h
      by_cases hc : c = '$'
      · rw [if_pos hc] at h ⊢
        by_cases hd : d = lbraceChar
        · rw [if_pos hd] at h ⊢
          split at h
          next p heq => simp at h
          next heq =>
            rw [heq]
            show c :: replaceCharsAux context n (d :: cs2) = c :: d :: cs2
            rw [ih _ h]
        · rw [if_neg hd] at h ⊢
          rw [ih _ h]
      · rw [if_neg hc] at h ⊢
        rw [ih _ h]

theorem replaceChars_id {context : JSVal} {cs : List Char}
    (h : hasEmbedded cs = false) : replaceChars context cs = cs :=
  replaceCharsAux_id _ _ h

mutual

theorem placeholderFree_interp (v context : JSVal)
    (h : placeholderFree v = true) : interpolateValue v context = v := by
  match v with
  | .null => rfl
  | JSVal.undef => rfl
  | .bool _ => rfl
  | .num _ => rfl
  | .str s =>
    have h2 : hasEmbedded s.data = false := by
      unfold placeholderFree at h
      cases hh : hasEmbedded s.data with
      | false => rfl
      | true => rw [hh] at h; simp at h
    have hw : wholeMatch s = none := by
      cases hwm : wholeMatch s with
      | none => rfl
      | some tok => rw [wholeMatch_hasEmbedded hwm] at h2; cases h2
    unfold interpolateValue
    rw [hw]
    show JSVal.str (String.mk (replaceChars context s.data)) = JSVal.str s
    rw [replaceChars_id h2]
  | .arr elems =>
    unfold placeholderFree at h
    unfold interpolateValue
    rw [placeholderFree_interpList elems context h]
  | .obj fields =>
    unfold placeholderFree at h
    unfold interpolateValue
    rw [placeholderFree_interpFields fields context h]

theorem placeholderFree_interpList (elems : List JSVal) (context : JSVal)
    (h : placeholderFreeList elems = true) :
    interpolateList elems context = elems := by
  match elems with
  | [] => rfl
  | v :: rest =>
    unfold placeholderFreeList at h
    simp only [Bool.and_eq_true] at h
    unfold interpolateList
    rw [placeholderFree_interp v context h.1,
      placeholderFree_interpList rest context h.2]

theorem placeholderFree_interpFields (fields : List (String × JSVal))
    (context : JSVal) (h : placeholderFreeFields fields = true) :
    interpolateFields fields context = fields := by
  match fields with
  | [] => rfl
  | kv :: rest =>
    unfold placeholderFreeFields at h
    simp only [Bool.and_eq_true] at h
    unfold interpolateFields
    rw [placeholderFree_interp kv.2 context h.1,
      placeholderFree_interpFields rest context h.2]

end

/-- C8 counterexample.  The claim states
`interpolateValue(interpolateValue(v, ctx), ctx) == interpolateValue(v, ctx)`
for every value and context.  With `ctx = {a: "${b}", b: "X"}` and
`v = "${a}"`, the first interpolation yields the string `"${b}"` and the
second yields `"X"`, so interpolation is not idempotent as claimed. -/
theorem interp_idempotent_counterexample :
    interpolateValue (interpolateValue (.str (dollarStr "a")) ctxC8) ctxC8
      ≠ interpolateValue (.str (dollarStr "a")) ctxC8 := by
  have h1 : interpolateValue (.str (dollarStr "a")) ctxC8 = .str (dollarStr "b") := rfl
  have h2 : interpolateValue (.str (dollarStr "b")) ctxC8 = .str "X" := rfl
  rw [h1, h2]
  intro h
  injection h with h3
  exact absurd h3 (by decide)

/-- C8, amended.  Interpolation is idempotent for every value and context
whose first interpolation result is placeholder-free (no string leaf of
the result contains a `${...}` occurrence); re-interpolating such a result
is the identity.  The unrestricted claim fails as soon as a context leaf
itself contains placeholder text (`interp_idempotent_counterexample`). -/
theorem interp_idempotent_of_placeholderFree (v context : JSVal)
    (h : placeholderFree (interpolateValue v context) = true) :
    interpolateValue (interpolateValue v context) context
      = interpolateValue v context :=
  placeholderFree_interp _ _ h

/-- Witness for `interp_idempotent_of_placeholderFree` at
`v = "${a}"`, `ctx = {a: "hello"}`. -/
theorem interp_idempotent_witness :
    placeholderFree
        (interpolateValue (.str (dollarStr "a")) (.obj [("a", .str "hello")]))
      = true
    ∧ interpolateValue
        (interpolateValue (.str (dollarStr "a")) (.obj [("a", .str "hello")]))
        (.obj [("a", .str "hello")])
      = interpolateValue (.str (dollarStr "a")) (.obj [("a", .str "hello")]) :=
  ⟨by decide, interp_idempotent_of_placeholderFree _ _ (by decide)⟩

theorem assocLookup_mem {α : Type} {l : List (String × α)} {k : String} {v : α}
    (h : assocLookup l k = some v) : (k, v) ∈ l := by
  induction l with
  | nil => simp [assocLookup] at h
  | cons kv rest ih =>
    unfold assocLookup at h
    split at h
    next heq =>
      injection h with h2
      subst heq
      subst h2
      exact List.mem_cons_self _ _
    next => exact List.mem_cons_of_mem _ (ih h)

theorem jGetL_of_not_hasKey {fields : List (String × JSVal)} {k : String}
    (h : hasKeyL fields k = false) : jGetL fields k = JSVal.undef := by
  induction fields with
  | nil => rfl
  | cons kv rest ih =>
    unfold hasKeyL at h
    simp only [Bool.or_eq_false_iff, decide_eq_false_iff_not] at h
    unfold jGetL
    rw [if_neg h.1]
    exact ih h.2

theorem jsOr_of_truthy {a b : JSVal} (h : a.truthy = true) : jsOr a b = a := by
  simp [jsOr, h]

theorem jsOr_undef (b : JSVal) : jsOr JSVal.undef b = b := rfl

theorem commandOwner_mem_workers {c owner : String}
    (h : commandOwner c = some owner) : WORKERS_values.contains owner = true := by
  have hmem := assocLookup_mem h
  fin_cases hmem <;> decide

theorem commandOwner_ne_empty {c owner : String}
    (h : commandOwner c = some owner) : c ≠ "" := by
  intro hc
  subst hc
  rw [show commandOwner "" = (none : Option String) from rfl] at h
  exact Option.noConfusion h

theorem jGetL_worker_entry (a w c p tr : JSVal) :
    jGetL [("id", a), ("worker", w), ("cmd", c), ("payload", p),
      ("trace_id", tr)] "worker" = w := rfl

theorem jGetL_cmd_entry (a w c p tr : JSVal) :
    jGetL [("id", a), ("worker", w), ("cmd", c), ("payload", p),
      ("trace_id", tr)] "cmd" = c := rfl

theorem toRequestEnvelope_obj (fields : List (String × JSVal)) (i t : String) :
    toRequestEnvelope (.obj fields) JSVal.undef i t
      = .obj [("id", jsOr (jGetL fields "id") (.str i)),
              ("worker", jsOr (jGetL fields "worker") (ownerAsJS (jGetL fields "cmd"))),
              ("cmd", jGetL fields "cmd"),
              ("payload", .obj (envelopePayload fields)),
              ("trace_id", jsOr (jGetL fields "trace_id") (.str t))] := rfl

/-- C7, amended.  For every raw request `{cmd, ...extras}` whose `cmd` has
a defined owner: (a) when the request does not set `worker` and the
canonical payload satisfies the command's schema,
`validateRequestEnvelope(toRequestEnvelope(raw))` succeeds and the
envelope's worker equals `commandOwner(cmd)`; (b) when the request sets
`worker` to a truthy value different from `commandOwner(cmd)` (any
non-string, or a string other than the owner), validation fails with a
`UserError`.  The original claim quantified (b) over every differing
`worker` field; a falsy one — e.g. the empty string — is replaced by
`commandOwner(cmd)` during canonicalization and validation then succeeds
(`envelope_mismatch_counterexample`). -/
theorem envelope_validation_routes (fields : List (String × JSVal))
    (c owner i t : String)
    (hcmd : jGetL fields "cmd" = .str c)
    (howner : commandOwner c = some owner) :
    (hasKeyL fields "worker" = false →
      schemaCheck c (envelopePayload fields) = none →
      (toRequestEnvelope (.obj fields) JSVal.undef i t).jGet "worker" = .str owner
        ∧ validateRequestEnvelope (toRequestEnvelope (.obj fields) JSVal.undef i t)
            = .ok ())
    ∧ (∀ wv : JSVal, jGetL fields "worker" = wv → wv.truthy = true →
        (∀ s : String, wv = .str s → s ≠ owner) →
        ∃ e : UserError,
          validateRequestEnvelope (toRequestEnvelope (.obj fields) JSVal.undef i t)
            = .error e) := by
  have hco := toRequestEnvelope_obj fields i t
  constructor
  · intro hw hschema
    have hwu : jGetL fields "worker" = JSVal.undef := jGetL_of_not_hasKey hw
    have hown : jsOr (jGetL fields "worker") (ownerAsJS (jGetL fields "cmd"))
        = .str owner := by
      rw [hwu, hcmd, jsOr_undef]
      unfold ownerAsJS
      rw [show (JSVal.str c).jsToString = c from rfl, howner]
    constructor
    · rw [hco]
      show jGetL _ "worker" = .str owner
      rw [jGetL_worker_entry]
      exact hown
    · rw [hco]
      show validateWorkerPhase _ = .ok ()
      unfold validateWorkerPhase
      rw [jGetL_worker_entry, hown]
      rw [show workerEnumHas (.str owner) = WORKERS_values.contains owner from rfl,
        commandOwner_mem_workers howner]
      show validateCmdPhase _ _ = .ok ()
      unfold validateCmdPhase
      rw [jGetL_cmd_entry, hcmd]
      show (if c = "" then _ else _) = .ok ()
      rw [if_neg (commandOwner_ne_empty howner), howner]
      show validateRoutePhase _ _ c owner = .ok ()
      unfold validateRoutePhase
      rw [show workerEq (.str owner) owner = decide (owner = owner) from rfl,
        decide_eq_true (rfl : owner = owner)]
      show (match schemaCheck c (envelopePayload fields) with
            | some e => Except.error e
            | none => Except.ok ()) = Except.ok ()
      rw [hschema]
  · intro wv hwv htruthy hne
    have hown : jsOr (jGetL fields "worker") (ownerAsJS (jGetL fields "cmd"))
        = wv := by
      rw [hwv]
      exact jsOr_of_truthy htruthy
    rw [hco]
    show ∃ e : UserError, validateWorkerPhase _ = .error e
    unfold validateWorkerPhase
    rw [jGetL_worker_entry, hown]
    cases henum : workerEnumHas wv with
    | false => exact ⟨_, rfl⟩
    | true =>
      show ∃ e : UserError, validateCmdPhase _ wv = .error e
      unfold validateCmdPhase
      rw [jGetL_cmd_entry, hcmd]
      show ∃ e : UserError,
          (if c = "" then Except.error ⟨"cmd must be a non-empty string"⟩
           else
             match commandOwner c with
             | none => Except.error ⟨"unknown command: " ++ c⟩
             | some owner2 =>
               validateRoutePhase
                 [("id", jsOr (jGetL fields "id") (JSVal.str i)),
                  ("worker", wv),
                  ("cmd", JSVal.str c),
                  ("payload", JSVal.obj (envelopePayload fields)),
                  ("trace_id", jsOr (jGetL fields "trace_id") (JSVal.str t))]
                 wv c owner2) = Except.error e
      rw [if_neg (commandOwner_ne_empty howner), howner]
      show ∃ e : UserError,
          validateRoutePhase
            [("id", jsOr (jGetL fields "id") (JSVal.str i)),
             ("worker", wv),
             ("cmd", JSVal.str c),
             ("payload", JSVal.obj (envelopePayload fields)),
             ("trace_id", jsOr (jGetL fields "trace_id") (JSVal.str t))]
            wv c owner = .error e
      unfold validateRoutePhase
      match wv, hne, henum with
      | .str s, hne2, _ =>
        rw [show workerEq (.str s) owner = decide (s = owner) from rfl,
          decide_eq_false (hne2 s rfl)]
        exact ⟨_, rfl⟩
      | .null, _, henum2 => exact Bool.noConfusion henum2
      | JSVal.undef, _, henum2 => exact Bool.noConfusion henum2
      | .bool _, _, henum2 => exact Bool.noConfusion henum2
      | .num _, _, henum2 => exact Bool.noConfusion henum2
      | .arr _, _, henum2 => exact Bool.noConfusion henum2
      | .obj _, _, henum2 => exact Bool.noConfusion henum2

/-- C7 counterexample.  The claim asserts that every raw request whose
`worker` field differs from `commandOwner(cmd)` fails validation with a
`UserError`.  The raw request
`{cmd: "transcribe_folder", folder_path: "/tmp/audio", worker: ""}` sets
`worker` to the empty string — which differs from the owner `"media"` —
yet `toRequestEnvelope` replaces the falsy value by the owner and
validation succeeds. -/
theorem envelope_mismatch_counterexample :
    validateRequestEnvelope
        (toRequestEnvelope
          (.obj [("cmd", .str "transcribe_folder"),
                 ("folder_path", .str "/tmp/audio"),
                 ("worker", .str "")])
          JSVal.undef "id-1" "trace-1")
      = .ok ()
    ∧ (toRequestEnvelope
        (.obj [("cmd", .str "transcribe_folder"),
               ("folder_path", .str "/tmp/audio"),
               ("worker", .str "")])
        JSVal.undef "id-1" "trace-1").jGet "worker"
      = .str "media" := ⟨rfl, rfl⟩

/-- Witness for `envelope_validation_routes`: part (a) at
`{cmd: "transcribe_folder", folder_path: "/x"}` (routes to `media`,
validates), part (b) at `{cmd: "transcribe", worker: "resolve"}`
(misroute fails). -/
theorem envelope_validation_witness :
    ((toRequestEnvelope (.obj [("cmd", .str "transcribe_folder"),
        ("folder_path", .str "/x")]) JSVal.undef "id-2" "trace-2").jGet "worker"
      = .str "media"
    ∧ validateRequestEnvelope (toRequestEnvelope
        (.obj [("cmd", .str "transcribe_folder"), ("folder_path", .str "/x")])
        JSVal.undef "id-2" "trace-2") = .ok ())
    ∧ (∃ e : UserError,
        validateRequestEnvelope (toRequestEnvelope
          (.obj [("cmd", .str "transcribe"), ("worker", .str "resolve")])
          JSVal.undef "id-3" "trace-3") = .error e) :=
  ⟨(envelope_validation_routes
      [("cmd", .str "transcribe_folder"), ("folder_path", .str "/x")]
      "transcribe_folder" "media" "id-2" "trace-2" rfl rfl).1 rfl rfl,
   (envelope_validation_routes
      [("cmd", .str "transcribe"), ("worker", .str "resolve")]
      "transcribe" "media" "id-3" "trace-3" rfl rfl).2
     (.str "resolve") rfl rfl
     (fun s hs => by injection hs with hs2; subst hs2; decide)⟩

theorem jGetL_objSet (l : List (String × JSVal)) (k k2 : String) (v : JSVal) :
    jGetL (objSet l k v) k2 = if k = k2 then v else jGetL l k2 := by
  induction l with
  | nil =>
    by_cases h : k = k2 <;> simp [objSet, jGetL, h]
  | cons kv rest ih =>
    unfold objSet
    by_cases h1 : kv.1 = k
    · rw [if_pos h1]
      by_cases h2 : k = k2
      · simp [jGetL, h2]
      · have h3 : ¬(kv.1 = k2) := by rw [h1]; exact h2
        simp [jGetL, h2, h3]
    · rw [if_neg h1]
      by_cases h3 : kv.1 = k2
      · have h4 : ¬(k = k2) := by
          intro hk
          exact h1 (by rw [h3, hk])
        simp [jGetL, h3, h4]
      · simp [jGetL, h3, ih]

theorem jGetL_objAssign (base src : List (String × JSVal)) (k : String) :
    jGetL (objAssign base src) k
      = (match lastLookup src k with
         | some v => v
         | none => jGetL base k) := by
  induction src generalizing base with
  | nil => rfl
  | cons kv tl ih =>
    show jGetL (objAssign (objSet base kv.1 kv.2) tl) k = _
    rw [ih]
    cases hl : lastLookup tl k with
    | some v => simp [lastLookup, hl]
    | none =>
      rw [jGetL_objSet]
      by_cases h : kv.1 = k <;> simp [lastLookup, hl, h]

theorem hasKeyL_objSet_of {l : List (String × JSVal)} {k : String}
    (k2 : String) (v : JSVal) (h : hasKeyL l k = true) :
    hasKeyL (objSet l k2 v) k = true := by
  induction l with
  | nil => simp [hasKeyL] at h
  | cons kv rest ih =>
    unfold hasKeyL at h
    unfold objSet
    by_cases h1 : kv.1 = k2
    · rw [if_pos h1]
      simp only [Bool.or_eq_true, decide_eq_true_eq] at h
      cases h with
      | inl h2 =>
        have : k2 = k := by rw [← h1, h2]
        simp [hasKeyL, this]
      | inr h2 => simp [hasKeyL, h2]
    · rw [if_neg h1]
      simp only [Bool.or_eq_true, decide_eq_true_eq] at h
      cases h with
      | inl h2 => simp [hasKeyL, h2]
      | inr h2 => simp [hasKeyL, ih h2]

theorem hasKeyL_objAssign_of {base : List (String × JSVal)} {k : String}
    (src : List (String × JSVal)) (h : hasKeyL base k = true) :
    hasKeyL (objAssign base src) k = true := by
  induction src generalizing base with
  | nil => exact h
  | cons kv tl ih =>
    show hasKeyL (objAssign (objSet base kv.1 kv.2) tl) k = true
    exact ih (hasKeyL_objSet_of kv.1 kv.2 h)

/-- C9.  Loading preferences is total: a missing file and an unparsable
file both yield the default preferences
`{recipe_defaults: {}, worker_concurrency: {resolve: 1, media: 2,
platform: 2}}`; and for every parsed value, the resulting
`worker_concurrency` has an entry for each of the three workers, whose
value is the last stored entry for that worker when one exists and the
per-worker default otherwise. -/
theorem loadPreferences_total_with_defaults :
    loadPreferences .missing = DEFAULT_PREFERENCES
    ∧ loadPreferences .parseError = DEFAULT_PREFERENCES
    ∧ ∀ (v : JSVal) (w : String), w ∈ ["resolve", "media", "platform"] →
        (match (loadPreferences (.parsed v)).jGet "worker_concurrency" with
         | .obj wc =>
            hasKeyL wc w = true
            ∧ jGetL wc w
                = (match lastLookup
                    (spreadSource (jsOr (v.jGet "worker_concurrency") (.obj []))) w with
                   | some stored => stored
                   | none => jGetL DEFAULT_WORKER_CONCURRENCY w)
         | _ => False) := by
  refine ⟨rfl, rfl, ?_⟩
  intro v w hw
  show hasKeyL (objAssign DEFAULT_WORKER_CONCURRENCY
        (spreadSource (jsOr (v.jGet "worker_concurrency") (.obj [])))) w = true
      ∧ jGetL (objAssign DEFAULT_WORKER_CONCURRENCY
        (spreadSource (jsOr (v.jGet "worker_concurrency") (.obj [])))) w = _
  constructor
  · apply hasKeyL_objAssign_of
    fin_cases hw <;> decide
  · rw [jGetL_objAssign]

/-- Witness for `loadPreferences_total_with_defaults`: a stored file
`{worker_concurrency: {media: 4}}` overrides `media` and keeps the
defaults for `resolve` and `platform`. -/
theorem loadPreferences_witness :
    loadPreferences .missing = DEFAULT_PREFERENCES
    ∧ (match (loadPreferences
          (.parsed (.obj [("worker_concurrency", .obj [("media", .num 4)])]))).jGet
          "worker_concurrency" with
       | .obj wc =>
          hasKeyL wc "media" = true
          ∧ jGetL wc "media"
              = (match lastLookup
                  (spreadSource (jsOr
                    ((JSVal.obj [("worker_concurrency", .obj [("media", .num 4)])]).jGet
                      "worker_concurrency") (.obj []))) "media" with
                 | some stored => stored
                 | none => jGetL DEFAULT_WORKER_CONCURRENCY "media")
       | _ => False)
    ∧ (loadPreferences
        (.parsed (.obj [("worker_concurrency", .obj [("media", .num 4)])]))).jGet
        "worker_concurrency"
      = .obj [("resolve", .num 1), ("media", .num 4), ("platform", .num 2)] :=
  ⟨loadPreferences_total_with_defaults.1,
   loadPreferences_total_with_defaults.2.2
     (.obj [("worker_concurrency", .obj [("media", .num 4)])]) "media"
     (by decide),
   rfl⟩

theorem assocLookup_filter_ne (l : List (String × JSVal)) (k : String) :
    assocLookup (l.filter (fun kv => kv.1 != k)) k = none := by
  induction l with
  | nil => rfl
  | cons kv rest ih =>
    rw [List.filter_cons]
    by_cases h : kv.1 = k
    · rw [if_neg (by simp [h])]
      exact ih
    · rw [if_pos (by simp [h])]
      unfold assocLookup
      rw [if_neg h]
      exact ih

theorem assocLookup_objSet_self (l : List (String × JSVal)) (k : String)
    (v : JSVal) : assocLookup (objSet l k v) k = some v := by
  induction l with
  | nil => simp [objSet, assocLookup]
  | cons kv rest ih =>
    by_cases h : kv.1 = k
    · simp [objSet, assocLookup, h]
    · simp [objSet, assocLookup, h, ih]

theorem jsOr_num_zero_default (ca : Int) : jsOr (.num ca) (.num 0) = .num ca := by
  by_cases h : ca = 0 <;> simp [jsOr, JSVal.truthy, h]

/-- C10.  `StepCacheStore.get` enforces expiry only under a positive
`ttlMs`: with `ttlMs` absent (default `0`), zero or negative, a stored
truthy entry is returned regardless of its age; an expired entry is
skipped but not deleted — a later `get` with `ttlMs = 0` on the same
store still returns it — while overwriting it with `set` replaces it and
`invalidate(fingerprint)` removes it. -/
theorem stepCacheGet_ttl_semantics (st : StepCacheState) (fp : String)
    (e : JSVal) (now now2 now3 ttl ca : Int) (meta : JSVal)
    (hlookup : assocLookup st.entries fp = some e)
    (htruthy : e.truthy = true)
    (hca : e.jGet "created_at" = .num ca) :
    (ttl ≤ 0 → stepCacheGet st now fp ttl = some e)
    ∧ (0 < ttl → now - ca > ttl →
        stepCacheGet st now fp ttl = none
        ∧ stepCacheGet st now2 fp 0 = some e
        ∧ stepCacheGet (stepCacheInvalidate st (.str fp)) now2 fp 0 = none)
    ∧ assocLookup (stepCacheSet st now3 fp meta).entries fp
        = some (.obj (objAssign [("created_at", .num now3)] (spreadSource meta))) := by
  have hexp0 : ∀ n : Int, entryExpired e n 0 = false := by
    intro n
    simp [entryExpired]
  refine ⟨?_, ?_, ?_⟩
  · intro httl
    unfold stepCacheGet
    rw [hlookup]
    show (if (!e.truthy) = true then none
          else if entryExpired e now ttl = true then none else some e) = some e
    rw [htruthy]
    have hne : entryExpired e now ttl = false := by
      unfold entryExpired
      rw [decide_eq_false (by omega : ¬(0 < ttl))]
      rfl
    rw [hne]
    rfl
  · intro httl hexp
    refine ⟨?_, ?_, ?_⟩
    · unfold stepCacheGet
      rw [hlookup]
      show (if (!e.truthy) = true then none
            else if entryExpired e now ttl = true then none else some e) = none
      rw [htruthy]
      have hyes : entryExpired e now ttl = true := by
        unfold entryExpired
        rw [hca, jsOr_num_zero_default, decide_eq_true httl]
        show (true && decide (now - ca > ttl)) = true
        rw [decide_eq_true hexp]
        rfl
      rw [hyes]
      rfl
    · unfold stepCacheGet
      rw [hlookup]
      show (if (!e.truthy) = true then none
            else if entryExpired e now2 0 = true then none else some e) = some e
      rw [htruthy, hexp0]
      rfl
    · by_cases hfp : fp = ""
      · subst hfp
        rfl
      · unfold stepCacheGet stepCacheInvalidate
        rw [if_neg (by simp [JSVal.truthy, hfp])]
        rw [show (JSVal.str fp).jsToString = fp from rfl]
        rw [assocLookup_filter_ne]
  · exact assocLookup_objSet_self st.entries fp _

/-- Witness for `stepCacheGet_ttl_semantics`: a store with one entry
created at time 100, read at time 200 with a TTL of 50. -/
theorem stepCacheGet_ttl_witness :
    stepCacheGet ⟨[("fp1", .obj [("created_at", .num 100),
        ("output", .str "cached")])]⟩ 200 "fp1" 50 = none
    ∧ stepCacheGet ⟨[("fp1", .obj [("created_at", .num 100),
        ("output", .str "cached")])]⟩ 300 "fp1" 0
      = some (.obj [("created_at", .num 100), ("output", .str "cached")]) :=
  ⟨((stepCacheGet_ttl_semantics
      ⟨[("fp1", .obj [("created_at", .num 100), ("output", .str "cached")])]⟩
      "fp1" (.obj [("created_at", .num 100), ("output", .str "cached")])
      200 300 0 50 100 .null rfl rfl rfl).2.1 (by decide) (by decide)).1,
   ((stepCacheGet_ttl_semantics
      ⟨[("fp1", .obj [("created_at", .num 100), ("output", .str "cached")])]⟩
      "fp1" (.obj [("created_at", .num 100), ("output", .str "cached")])
      200 300 0 50 100 .null rfl rfl rfl).2.1 (by decide) (by decide)).2.1⟩

/-- C1 (code bug).  The claim says a runnable step with an enabled cache
policy consults the step cache before dispatch and, on a hit, is marked
`succeeded` with `attempt = 0` and no worker request.  The engine holds no
reference to the step cache: submitting a plan whose only step carries
`cache_policy = {enabled: true, ttl_ms: 0}` marks the step `running` with
`attempt = 1` and sends the worker request — and the scheduling outcome is
literally independent of the cache policy (the `policy` below is
universally quantified). -/
theorem schedule_ignores_cache_policy :
    ∀ policy : JSVal,
      ((findStep (submitF (engineInit none none) (planOneMedia policy)) 1 1).map
        (fun st => (st.state, st.attempt)) = some (.running, 1))
      ∧ (submitF (engineInit none none) (planOneMedia policy)).tasks
          = [⟨1, 1, .media⟩]
      ∧ (submitF (engineInit none none)
          (planOneMedia (.obj [("enabled", .bool true), ("ttl_ms", .num 0)]))).tasks
          = [⟨1, 1, .media⟩] :=
  fun _ => ⟨rfl, rfl, rfl⟩

/-- C2 counterexample.  The claim says an error of category `FatalError`
marks the step `failed` without a further attempt even when retry budget
remains.  With `max_attempts = 2`, delivering a failure whose normalized
category is `FatalError` on attempt 1 returns the step to `queued` and the
following scheduling pass immediately re-runs it: afterwards the step is
`running` with `attempt = 2` — a further attempt was made. -/
theorem fatal_error_retried_counterexample :
    (⟨1, 1, .media⟩ ∈ (submitF (engineInit none none) planRetryTwo).tasks)
    ∧ ((findStep (deliverF (submitF (engineInit none none) planRetryTwo) 1 1
          (.failure ⟨.fatalError, "permanent configuration error"⟩)) 1 1).map
        (fun st => (st.state, st.attempt)) = some (.running, 2))
    ∧ ((findJob (deliverF (submitF (engineInit none none) planRetryTwo) 1 1
          (.failure ⟨.fatalError, "permanent configuration error"⟩)) 1).map
        (fun j => j.state) = some .running) := by
  refine ⟨by decide, rfl, rfl⟩

/-- C3 (code bug).  The claim says a job (with no failed and no canceled
step) is finalized `succeeded` only when every step is `succeeded`, and
stays `running` while a step still runs.  `scheduleRunnableSteps`
finalizes `succeeded` as soon as no step is `queued`: after submitting two
parallel media steps (both `running`) and delivering success for the
first, the pass in its `finally` block marks the job `succeeded` while the
second step is still `running`. -/
theorem job_succeeded_while_step_running :
    ((findJob (submitF (engineInit none none) planTwoMedia) 1).map
        (fun j => j.state) = some .running)
    ∧ ((findStep (submitF (engineInit none none) planTwoMedia) 1 2).map
        (fun st => st.state) = some .running)
    ∧ ((findStep (deliverF (submitF (engineInit none none) planTwoMedia) 1 1
          (.success (.obj []))) 1 2).map (fun st => st.state) = some .running)
    ∧ ((findJob (deliverF (submitF (engineInit none none) planTwoMedia) 1 1
          (.success (.obj []))) 1).map (fun j => j.state) = some .succeeded) :=
  ⟨rfl, rfl, rfl, rfl⟩

/-- C4 (code bug).  The claim says a step that reached `canceled` never
transitions again — in particular a step canceled while `dispatching` is
never subsequently run.  `cancel` moves a `dispatching` step to `canceled`
but leaves its item in the per-worker queue; when the running first step's
request settles, the `finally` drain pops the stale item and `runStep`
unconditionally marks the canceled step `running` (attempt 1) and sends
its worker request. -/
theorem canceled_step_reruns :
    (⟨1, 1, .resolve⟩ ∈ (submitF (engineInit none none) planTwoResolve).tasks
      ∧ (findStep (submitF (engineInit none none) planTwoResolve) 1 2).map
          (fun st => st.state) = some .dispatching)
    ∧ ((findStep (cancelF (submitF (engineInit none none) planTwoResolve) 1) 1 2).map
        (fun st => st.state) = some .canceled)
    ∧ ((findJob (cancelF (submitF (engineInit none none) planTwoResolve) 1) 1).map
        (fun j => j.state) = some .canceled)
    ∧ ((findStep (deliverF (cancelF (submitF (engineInit none none) planTwoResolve) 1)
          1 1 (.failure ⟨.retryableError, "resolve worker process exited"⟩)) 1 2).map
        (fun st => (st.state, st.attempt)) = some (.running, 1))
    ∧ (⟨1, 2, .resolve⟩ ∈ (deliverF (cancelF (submitF (engineInit none none) planTwoResolve) 1)
          1 1 (.failure ⟨.retryableError, "resolve worker process exited"⟩)).tasks) := by
  refine ⟨⟨by decide, rfl⟩, rfl, rfl, rfl, by decide⟩

theorem find?_map_ite {α : Type} (key : α → Nat) (target : Nat) (g : α → α)
    (hg : ∀ x, key (g x) = key x) (l : List α) :
    (l.map (fun x => if key x == target then g x else x)).find?
        (fun x => key x == target)
      = (l.find? (fun x => key x == target)).map g := by
  induction l with
  | nil => rfl
  | cons x rest ih =>
    rw [List.map_cons]
    by_cases hc : (key x == target) = true
    · rw [hc, if_pos rfl]
      simp only [List.find?_cons, hg, hc]
      rfl
    · have hcf : (key x == target) = false := by simpa using hc
      rw [hcf, if_neg (by simp)]
      simp only [List.find?_cons, hcf]
      exact ih

theorem find?_map_ite_ne {α : Type} (key : α → Nat) (target target2 : Nat)
    (g : α → α) (hg : ∀ x, key (g x) = key x) (hne : target2 ≠ target)
    (l : List α) :
    (l.map (fun x => if key x == target then g x else x)).find?
        (fun x => key x == target2)
      = l.find? (fun x => key x == target2) := by
  induction l with
  | nil => rfl
  | cons x rest ih =>
    rw [List.map_cons]
    by_cases hc : (key x == target) = true
    · have hc2 : (key x == target2) = false := by
        rw [beq_iff_eq] at hc
        rw [beq_eq_false_iff_ne, hc]
        exact fun h => hne h.symm
      rw [hc, if_pos rfl]
      simp only [List.find?_cons, hg, hc2]
      exact ih
    · have hcf : (key x == target) = false := by simpa using hc
      rw [hcf, if_neg (by simp)]
      by_cases hc2 : (key x == target2) = true
      · simp only [List.find?_cons, hc2]
      · have hc2f : (key x == target2) = false := by simpa using hc2
        simp only [List.find?_cons, hc2f]
        exact ih

theorem findJob_updateJob_self (s : EngineState) (jid : Nat) (F : Job → Job)
    (hFid : ∀ j, (F j).job_id = j.job_id) :
    findJob (updateJob s jid F) jid = (findJob s jid).map F :=
  find?_map_ite Job.job_id jid F hFid s.jobs

theorem findJob_updateJob_ne (s : EngineState) (jid jid2 : Nat) (F : Job → Job)
    (hFid : ∀ j, (F j).job_id = j.job_id) (hne : jid2 ≠ jid) :
    findJob (updateJob s jid F) jid2 = findJob s jid2 :=
  find?_map_ite_ne Job.job_id jid jid2 F hFid hne s.jobs

theorem findStep_updateJob_self (s : EngineState) (jid sid : Nat)
    (F : Job → Job) (g : StepState → StepState)
    (hFid : ∀ j, (F j).job_id = j.job_id)
    (hFsteps : ∀ j, (F j).steps
      = j.steps.map (fun st => if st.step_id == sid then g st else st))
    (hgid : ∀ x, (g x).step_id = x.step_id) :
    findStep (updateJob s jid F) jid sid = (findStep s jid sid).map g := by
  unfold findStep
  rw [findJob_updateJob_self s jid F hFid]
  cases h : findJob s jid with
  | none => rfl
  | some j =>
    show ((F j).steps).find? (fun st => st.step_id == sid) = _
    rw [hFsteps j]
    exact find?_map_ite StepState.step_id sid g hgid j.steps

theorem findStep_updateStep_self (s : EngineState) (jid sid : Nat)
    (g : StepState → StepState) (hgid : ∀ x, (g x).step_id = x.step_id) :
    findStep (updateStep s jid sid g) jid sid = (findStep s jid sid).map g :=
  findStep_updateJob_self s jid sid _ g (fun _ => rfl) (fun _ => rfl) hgid

/-- C2, amended.  When a step's request fails and its cancellation is not
requested, the engine does not inspect the error's category: for every
error — `UserError`, `RetryableError` and `FatalError` alike — the step
returns to `queued` exactly when `attempt < max(1, retry_policy.max_attempts)`
and is marked `failed` otherwise; and the normalizer maps every worker
reply with `ok: false` to a response whose error category is `UserError`
(any category the worker tagged is discarded), which is still retried
while budget remains. -/
theorem retry_decision_ignores_category (s : EngineState) (jid sid : Nat)
    (j : Job) (st : StepState) (err : NormalizedError)
    (hj : findJob s jid = some j)
    (hst : j.steps.find? (fun x => x.step_id == sid) = some st)
    (hcancel : st.cancelRequested = false) :
    ((findStep (deliverCore s jid sid (.failure err)) jid sid).map
        (fun x => x.state)
      = some (if st.attempt < max 1 j.retryMaxAttempts then .queued else .failed))
    ∧ (∀ (errv : JSVal) (did : Option String) (ftr : String) (nw : Int)
        (sa : Option Int),
        match normalizeResponseEnvelope
            (.obj [("id", .str "r-1"), ("ok", .bool false), ("error", errv)])
            did ftr nw sa with
        | .response r =>
          r.ok = false ∧ r.error.map (fun ne => ne.category) = some .userError
        | .event _ => False) := by
  constructor
  · have hfs : findStep s jid sid = some st := by
      unfold findStep
      rw [hj]
      exact hst
    unfold deliverCore
    simp only [hj, hst, hcancel, Bool.false_eq_true, if_false]
    by_cases hatt : st.attempt < max 1 j.retryMaxAttempts
    · rw [if_pos hatt,
        findStep_updateStep_self s jid sid
          (fun x => { x with state := .queued, error := some err.message })
          (fun _ => rfl),
        hfs, if_pos hatt]
      rfl
    · rw [if_neg hatt,
        findStep_updateJob_self s jid sid (failStepIn sid err.message)
          (fun x => { x with state := .failed, error := some err.message })
          (fun _ => rfl) (fun _ => rfl) (fun _ => rfl),
        hfs, if_neg hatt]
      rfl
  · intro errv did ftr nw sa
    exact ⟨rfl, rfl⟩

/-- Witness for `retry_decision_ignores_category`: a `FatalError` failure
on attempt 1 of 2 re-queues the step. -/
theorem retry_decision_witness :
    ((findStep (deliverCore stateC2W 1 1
        (.failure ⟨.fatalError, "permanent configuration error"⟩)) 1 1).map
      (fun x => x.state)
      = some (if stepC2W.attempt < max 1 jobC2W.retryMaxAttempts
              then .queued else .failed))
    ∧ (∀ (errv : JSVal) (did : Option String) (ftr : String) (nw : Int)
        (sa : Option Int),
        match normalizeResponseEnvelope
            (.obj [("id", .str "r-1"), ("ok", .bool false), ("error", errv)])
            did ftr nw sa with
        | .response r =>
          r.ok = false ∧ r.error.map (fun ne => ne.category) = some .userError
        | .event _ => False) :=
  retry_decision_ignores_category stateC2W 1 1 jobC2W stepC2W
    ⟨.fatalError, "permanent configuration error"⟩ rfl rfl rfl

theorem conc_updateJob (s : EngineState) (jid : Nat) (F : Job → Job) :
    (updateJob s jid F).concurrency = s.concurrency := rfl

theorem conc_finalizeF (s : EngineState) (jid : Nat) (t : StepSt) :
    (finalizeF s jid t).concurrency = s.concurrency := by
  unfold finalizeF
  cases findJob s jid with
  | none => rfl
  | some j =>
    show (if j.state.isTerminal = true then s
          else updateJob s jid (fun j0 => { j0 with state := t })).concurrency
        = s.concurrency
    split
    · rfl
    · rfl

theorem conc_runStepStart (s : EngineState) (jid sid : Nat) :
    (runStepStart s jid sid).concurrency = s.concurrency := by
  unfold runStepStart
  cases findJob s jid with
  | none => rfl
  | some j =>
    show (match (j.steps.find? (fun st => st.step_id == sid) : Option StepState) with
          | none => s
          | some st =>
            let s1 := updateStep s jid sid
              (fun x => { x with state := .running, attempt := x.attempt + 1 })
            let s2 :=
              { s1 with
                active := s1.active.set st.worker (s1.active.get st.worker + 1) }
            { s2 with tasks := ⟨jid, sid, st.worker⟩ :: s2.tasks }).concurrency
        = s.concurrency
    cases j.steps.find? (fun st => st.step_id == sid) with
    | none => rfl
    | some st => rfl

theorem conc_drainAux (w : Worker) :
    ∀ (fuel : Nat) (s : EngineState),
      (drainAux w fuel s).concurrency = s.concurrency := by
  intro fuel
  induction fuel with
  | zero => intro s; rfl
  | succ n ih =>
    intro s
    unfold drainAux
    split
    · show (match s.queues.get w with
            | [] => s
            | item :: rest =>
              drainAux w n
                (runStepStart { s with queues := s.queues.set w rest }
                  item.1 item.2)).concurrency = s.concurrency
      cases s.queues.get w with
      | nil => rfl
      | cons item rest => rw [ih, conc_runStepStart]
    · rfl

theorem conc_drainOwnerQueue (s : EngineState) (w : Worker) :
    (drainOwnerQueue s w).concurrency = s.concurrency :=
  conc_drainAux w _ s

theorem conc_scheduleStepBody (jid : Nat) (completed : List Nat)
    (s0 : EngineState) (st : StepState) :
    (scheduleStepBody jid completed s0 st).concurrency = s0.concurrency := by
  unfold scheduleStepBody
  split
  · exact (conc_drainOwnerQueue _ _)
  · rfl

theorem conc_foldl {β : Type} (f : EngineState → β → EngineState)
    (hf : ∀ s0 x, (f s0 x).concurrency = s0.concurrency) :
    ∀ (l : List β) (s0 : EngineState),
      (l.foldl f s0).concurrency = s0.concurrency := by
  intro l
  induction l with
  | nil => intro s0; rfl
  | cons x rest ih =>
    intro s0
    rw [List.foldl_cons, ih, hf]

theorem conc_scheduleRunnableSteps (s : EngineState) (jid : Nat) :
    (scheduleRunnableSteps s jid).concurrency = s.concurrency := by
  unfold scheduleRunnableSteps
  cases findJob s jid with
  | none => rfl
  | some j =>
    show (if j.steps.any (fun st => st.state == .failed) = true
          then finalizeF s jid .failed
          else if j.steps.any (fun st => st.state == .canceled) = true
          then finalizeF s jid .canceled
          else if (j.steps.filter (fun st => st.state == .queued)).isEmpty = true
          then finalizeF s jid .succeeded
          else (j.steps.filter (fun st => st.state == .queued)).foldl
            (scheduleStepBody jid
              ((j.steps.filter (fun st => st.state == .succeeded)).map
                (fun st => st.step_id))) s).concurrency
        = s.concurrency
    split
    · exact conc_finalizeF s jid .failed
    · split
      · exact conc_finalizeF s jid .canceled
      · split
        · exact conc_finalizeF s jid .succeeded
        · exact conc_foldl _ (fun s0 st => conc_scheduleStepBody _ _ s0 st) _ s

theorem conc_enqueueJob (s : EngineState) (jid : Nat) :
    (enqueueJob s jid).concurrency = s.concurrency := by
  unfold enqueueJob
  cases findJob s jid with
  | none => rfl
  | some j =>
    show (if (j.state == .queued || j.state == .running) = true
          then scheduleRunnableSteps
            (if (j.state == .queued) = true
             then updateJob s jid (fun j0 => { j0 with state := .running })
             else s) jid
          else s).concurrency = s.concurrency
    split
    · rw [conc_scheduleRunnableSteps]
      split
      · rfl
      · rfl
    · rfl

theorem conc_submitNew (s : EngineState) (p : Plan) :
    (submitNew s p).concurrency = s.concurrency := by
  unfold submitNew
  cases p.idempotency_key with
  | none => exact conc_enqueueJob _ _
  | some key => exact conc_enqueueJob _ _

theorem conc_submitF (s : EngineState) (p : Plan) :
    (submitF s p).concurrency = s.concurrency := by
  unfold submitF
  cases p.idempotency_key with
  | none => exact conc_submitNew s p
  | some key =>
    show (if (assocLookup s.idemIndex key).isSome = true then s
          else submitNew s p).concurrency = s.concurrency
    split
    · rfl
    · exact conc_submitNew s p

theorem conc_deliverCore (s : EngineState) (jid sid : Nat) (oc : Outcome) :
    (deliverCore s jid sid oc).concurrency = s.concurrency := by
  unfold deliverCore
  cases findJob s jid with
  | none => rfl
  | some j =>
    show (match (j.steps.find? (fun st => st.step_id == sid) : Option StepState) with
          | none => s
          | some st =>
            match oc with
            | .success data =>
              updateStep s jid sid
                (fun x => { x with state := .succeeded, output := some data })
            | .failure err =>
              if st.cancelRequested then
                updateStep s jid sid
                  (fun x => { x with state := .canceled, error := some "canceled" })
              else if st.attempt < max 1 j.retryMaxAttempts then
                updateStep s jid sid
                  (fun x => { x with state := .queued, error := some err.message })
              else updateJob s jid (failStepIn sid err.message)).concurrency
        = s.concurrency
    cases j.steps.find? (fun st => st.step_id == sid) with
    | none => rfl
    | some st =>
      cases oc with
      | success data => rfl
      | failure err =>
        show (if st.cancelRequested = true
              then updateStep s jid sid
                (fun x => { x with state := .canceled, error := some "canceled" })
              else if st.attempt < max 1 j.retryMaxAttempts
              then updateStep s jid sid
                (fun x => { x with state := .queued, error := some err.message })
              else updateJob s jid (failStepIn sid err.message)).concurrency
            = s.concurrency
        split
        · rfl
        · split
          · rfl
          · rfl

theorem conc_deliverFinally (s : EngineState) (jid sid : Nat) :
    (deliverFinally s jid sid).concurrency = s.concurrency := by
  unfold deliverFinally
  cases findStep s jid sid with
  | none => rfl
  | some st =>
    exact (conc_scheduleRunnableSteps _ _).trans (conc_drainOwnerQueue _ _)

theorem conc_deliverF (s : EngineState) (jid sid : Nat) (oc : Outcome) :
    (deliverF s jid sid oc).concurrency = s.concurrency := by
  unfold deliverF
  exact (conc_deliverFinally _ _ _).trans (conc_deliverCore _ _ _ _)

theorem conc_cancelF (s : EngineState) (jid : Nat) :
    (cancelF s jid).concurrency = s.concurrency := by
  unfold cancelF
  cases findJob s jid with
  | none => rfl
  | some j => exact conc_scheduleRunnableSteps _ _

theorem conc_resumeF (s : EngineState) :
    (resumeF s).concurrency = s.concurrency := by
  unfold resumeF
  refine conc_foldl _ (fun s0 jid => ?_) _ s
  cases findJob s0 jid with
  | none => rfl
  | some j =>
    show (if (j.state == .queued || j.state == .running) = true
          then enqueueJob
            (updateJob s0 jid
              (fun j0 => { j0 with steps := j0.steps.map resumeStepPass }))
            jid
          else s0).concurrency = s0.concurrency
    split
    · exact conc_enqueueJob _ _
    · rfl

theorem engineStep_concurrency {s s2 : EngineState} (h : EngineStep s s2) :
    s2.concurrency = s.concurrency := by
  cases h with
  | submit p hfresh hnodup => exact conc_submitF s p
  | deliver t oc ht => exact conc_deliverF s t.jid t.sid oc
  | cancel jid => exact conc_cancelF s jid
  | resume => exact conc_resumeF s

/-- C5 (code bug).  The claim says worker concurrency is reconfigurable at
runtime via preferences.  The `JobEngine` class defines no `setConcurrency`
method, so `ControlPlane.applyConcurrencyFromPreferences` — which is called
by the constructor and by every `setPreferences` — always raises
`TypeError: this.jobEngine.setConcurrency is not a function` after
computing its target, for every preferences value; and no engine
transition (submit, request settling, cancel, resume — which cover all
scheduling) ever changes the per-worker concurrency limits fixed at
construction. -/
theorem setConcurrency_not_implemented :
    (jobEngineMethods.contains "setConcurrency" = false)
    ∧ (∀ prefs : JSVal, applyConcurrencyFromPreferences prefs
        = .error "TypeError: this.jobEngine.setConcurrency is not a function")
    ∧ (∀ s s2 : EngineState, EngineStep s s2 → s2.concurrency = s.concurrency) :=
  ⟨rfl, fun _ => rfl, fun _ _ h => engineStep_concurrency h⟩

/-- Witness for `setConcurrency_not_implemented`: the `cancel` transition
on a fresh engine leaves the concurrency limits unchanged. -/
theorem setConcurrency_witness :
    (cancelF (engineInit none none) 0).concurrency
      = (engineInit none none).concurrency :=
  setConcurrency_not_implemented.2.2 _ _
    (EngineStep.cancel (engineInit none none) 0)

theorem wframe_refl (s : EngineState) : WFrame s s := fun _ _ => rfl

theorem wframe_trans {s1 s2 s3 : EngineState} (h12 : WFrame s1 s2)
    (h23 : WFrame s2 s3) : WFrame s1 s3 :=
  fun a b => (h23 a b).trans (h12 a b)

theorem PerWorker.get_set_self {α : Type} (p : PerWorker α) (w : Worker)
    (v : α) : (p.set w v).get w = v := by
  cases w <;> rfl

theorem PerWorker.get_set_ne {α : Type} (p : PerWorker α) (w w2 : Worker)
    (v : α) (h : w2 ≠ w) : (p.set w v).get w2 = p.get w2 := by
  cases w <;> cases w2 <;> first | rfl | exact absurd rfl h

theorem find?_key_self {α : Type} (key : α → Nat) (l : List α) (x : α)
    (hx : x ∈ l) (hnd : (l.map key).Nodup) :
    l.find? (fun y => key y == key x) = some x := by
  induction l with
  | nil => cases hx
  | cons a tl ih =>
    rw [List.map_cons, List.nodup_cons] at hnd
    rcases List.mem_cons.mp hx with heq | hx2
    · subst heq
      simp only [List.find?_cons, beq_self_eq_true]
    · have hne : (key a == key x) = false := by
        rw [beq_eq_false_iff_ne]
        intro hcontra
        exact hnd.1 (hcontra ▸ List.mem_map_of_mem key hx2)
      simp only [List.find?_cons, hne]
      exact ih hx2 hnd.2

theorem stepWorker_updateJob (s : EngineState) (jid : Nat) (F : Job → Job)
    (g : StepState → StepState)
    (hFid : ∀ j, (F j).job_id = j.job_id)
    (hFsteps : ∀ j, (F j).steps = j.steps.map g)
    (hgid : ∀ x, (g x).step_id = x.step_id)
    (hgw : ∀ x, (g x).worker = x.worker) :
    WFrame s (updateJob s jid F) := by
  intro a b
  unfold stepWorker findStep
  by_cases ha : a = jid
  · subst ha
    rw [findJob_updateJob_self s a F hFid]
    cases h : findJob s a with
    | none => rfl
    | some j =>
      show ((F j).steps.find? (fun st => st.step_id == b)).map StepState.worker
          = (j.steps.find? (fun st => st.step_id == b)).map StepState.worker
      rw [hFsteps j, List.find?_map]
      have hp : ((fun st : StepState => st.step_id == b) ∘ g)
          = (fun st : StepState => st.step_id == b) := by
        funext x
        show ((g x).step_id == b) = (x.step_id == b)
        rw [hgid]
      rw [hp, Option.map_map]
      have hw2 : (StepState.worker ∘ g) = StepState.worker := by
        funext x
        exact hgw x
      rw [hw2]
  · rw [findJob_updateJob_ne s jid a F hFid ha]

theorem updateJob_jobIds (s : EngineState) (jid : Nat) (F : Job → Job)
    (hFid : ∀ j, (F j).job_id = j.job_id) :
    (updateJob s jid F).jobs.map (fun j => j.job_id)
      = s.jobs.map (fun j => j.job_id) := by
  show (s.jobs.map (fun j => if j.job_id == jid then F j else j)).map
      (fun j => j.job_id) = _
  rw [List.map_map]
  have h : ((fun j : Job => j.job_id)
        ∘ (fun j => if j.job_id == jid then F j else j))
      = (fun j : Job => j.job_id) := by
    funext j
    show (if j.job_id == jid then F j else j).job_id = j.job_id
    by_cases hc : (j.job_id == jid) = true
    · rw [if_pos hc, hFid]
    · rw [if_neg hc]
  rw [h]

theorem updateJob_mem (s : EngineState) (jid : Nat) (F : Job → Job)
    (j2 : Job) (hj2 : j2 ∈ (updateJob s jid F).jobs) :
    ∃ j ∈ s.jobs, j2 = if j.job_id == jid then F j else j := by
  have hj2m : j2 ∈ s.jobs.map (fun j => if j.job_id == jid then F j else j) :=
    hj2
  obtain ⟨j, hj, heq⟩ := List.mem_map.mp hj2m
  exact ⟨j, hj, heq.symm⟩

theorem steps_ids_map (g : StepState → StepState)
    (hgid : ∀ x, (g x).step_id = x.step_id) (l : List StepState) :
    (l.map g).map (fun st => st.step_id) = l.map (fun st => st.step_id) := by
  rw [List.map_map]
  have h : ((fun st : StepState => st.step_id) ∘ g)
      = (fun st : StepState => st.step_id) := by
    funext x
    exact hgid x
  rw [h]

theorem ite_g_id (sid : Nat) (g : StepState → StepState)
    (hgid : ∀ x, (g x).step_id = x.step_id) (x : StepState) :
    (if x.step_id == sid then g x else x).step_id = x.step_id := by
  by_cases hc : (x.step_id == sid) = true
  · rw [if_pos hc, hgid]
  · rw [if_neg hc]

theorem ite_g_w (sid : Nat) (g : StepState → StepState)
    (hgw : ∀ x, (g x).worker = x.worker) (x : StepState) :
    (if x.step_id == sid then g x else x).worker = x.worker := by
  by_cases hc : (x.step_id == sid) = true
  · rw [if_pos hc, hgw]
  · rw [if_neg hc]

theorem ite_g_run (sid : Nat) (g : StepState → StepState)
    (hgrun : ∀ x, (g x).state = .running → x.state = .running) (x : StepState) :
    (if x.step_id == sid then g x else x).state = .running
      → x.state = .running := by
  by_cases hc : (x.step_id == sid) = true
  · rw [if_pos hc]
    exact hgrun x
  · rw [if_neg hc]
    exact fun h => h

theorem inv_updateJob (s : EngineState) (jid : Nat) (F : Job → Job)
    (g : StepState → StepState)
    (hFid : ∀ j, (F j).job_id = j.job_id)
    (hFsteps : ∀ j, (F j).steps = j.steps.map g)
    (hgid : ∀ x, (g x).step_id = x.step_id)
    (hgw : ∀ x, (g x).worker = x.worker)
    (hgrun : ∀ x, (g x).state = .running → x.state = .running)
    (hinv : EngineInv s) : EngineInv (updateJob s jid F) := by
  have hframe : WFrame s (updateJob s jid F) :=
    stepWorker_updateJob s jid F g hFid hFsteps hgid hgw
  refine ⟨hinv.conc_pos, hinv.active_eq, hinv.active_le, ?_, ?_, ?_, ?_, ?_⟩
  · rw [updateJob_jobIds s jid F hFid]
    exact hinv.job_nodup
  · intro j2 hj2
    obtain ⟨j, hj, heq⟩ := updateJob_mem s jid F j2 hj2
    subst heq
    by_cases hc : (j.job_id == jid) = true
    · rw [if_pos hc, hFsteps j, steps_ids_map g hgid]
      exact hinv.steps_nodup j hj
    · rw [if_neg hc]
      exact hinv.steps_nodup j hj
  · intro t ht
    rw [hframe t.jid t.sid]
    exact hinv.task_step t ht
  · intro j2 hj2 st2 hst2 hrun
    obtain ⟨j, hj, heq⟩ := updateJob_mem s jid F j2 hj2
    subst heq
    by_cases hc : (j.job_id == jid) = true
    · rw [if_pos hc] at hst2 ⊢
      rw [hFsteps j] at hst2
      obtain ⟨st0, hst0, heq2⟩ := List.mem_map.mp hst2
      subst heq2
      obtain ⟨t, htmem, htj, hts⟩ :=
        hinv.running_task j hj st0 hst0 (hgrun st0 hrun)
      exact ⟨t, htmem, by rw [hFid]; exact htj, by rw [hgid]; exact hts⟩
    · rw [if_neg hc] at hst2 ⊢
      obtain ⟨t, htmem, htj, hts⟩ := hinv.running_task j hj st2 hst2 hrun
      exact ⟨t, htmem, htj, hts⟩
  · intro w item hitem
    rw [hframe item.1 item.2]
    exact hinv.queue_worker w item hitem

theorem inv_updateStep (s : EngineState) (jid sid : Nat)
    (g : StepState → StepState)
    (hgid : ∀ x, (g x).step_id = x.step_id)
    (hgw : ∀ x, (g x).worker = x.worker)
    (hgrun : ∀ x, (g x).state = .running → x.state = .running)
    (hinv : EngineInv s) : EngineInv (updateStep s jid sid g) :=
  inv_updateJob s jid _ (fun x => if x.step_id == sid then g x else x)
    (fun _ => rfl) (fun _ => rfl) (ite_g_id sid g hgid) (ite_g_w sid g hgw)
    (ite_g_run sid g hgrun) hinv

theorem wframe_updateStep (s : EngineState) (jid sid : Nat)
    (g : StepState → StepState)
    (hgid : ∀ x, (g x).step_id = x.step_id)
    (hgw : ∀ x, (g x).worker = x.worker) :
    WFrame s (updateStep s jid sid g) :=
  stepWorker_updateJob s jid _ (fun x => if x.step_id == sid then g x else x)
    (fun _ => rfl) (fun _ => rfl) (ite_g_id sid g hgid) (ite_g_w sid g hgw)

theorem drainLimit_eq (s : EngineState) (w : Worker)
    (h : 1 ≤ s.concurrency.get w) : drainLimit s w = s.concurrency.get w := by
  unfold drainLimit
  cases hc : s.concurrency.get w with
  | zero =>
    rw [hc] at h
    exact absurd h (by decide)
  | succ n => rfl

theorem updateJob_steps_nodup (s : EngineState) (jid : Nat) (F : Job → Job)
    (g : StepState → StepState)
    (hFsteps : ∀ j, (F j).steps = j.steps.map g)
    (hgid : ∀ x, (g x).step_id = x.step_id)
    (hnd : ∀ j ∈ s.jobs, (j.steps.map (fun st => st.step_id)).Nodup) :
    ∀ j2 ∈ (updateJob s jid F).jobs,
      (j2.steps.map (fun st => st.step_id)).Nodup := by
  intro j2 hj2
  obtain ⟨j, hj, heq⟩ := updateJob_mem s jid F j2 hj2
  subst heq
  by_cases hc : (j.job_id == jid) = true
  · rw [if_pos hc, hFsteps j, steps_ids_map g hgid]
    exact hnd j hj
  · rw [if_neg hc]
    exact hnd j hj

theorem inv_runStepStart (s : EngineState) (jid sid : Nat) (w : Worker)
    (hinv : EngineInv s)
    (hq : stepWorker s jid sid = some w)
    (hlt : s.active.get w < s.concurrency.get w) :
    EngineInv (runStepStart s jid sid) ∧ WFrame s (runStepStart s jid sid) := by
  unfold stepWorker findStep at hq
  cases hj : findJob s jid with
  | none =>
    rw [hj] at hq
    simp at hq
  | some j =>
    rw [hj] at hq
    have hq2 : (j.steps.find? (fun st => st.step_id == sid)).map
        StepState.worker = some w := hq
    cases hfind : j.steps.find? (fun st => st.step_id == sid) with
    | none =>
      rw [hfind] at hq2
      simp at hq2
    | some st =>
      rw [hfind, Option.map_some'] at hq2
      have hstw : st.worker = w := Option.some.inj hq2
      have hsw : stepWorker s jid sid = some st.worker := by
        unfold stepWorker findStep
        rw [hj]
        show (j.steps.find? (fun st2 => st2.step_id == sid)).map
            StepState.worker = some st.worker
        rw [hfind, Option.map_some']
      have hred : runStepStart s jid sid
          = { updateStep s jid sid runG with
              active := s.active.set st.worker (s.active.get st.worker + 1),
              tasks := ⟨jid, sid, st.worker⟩ :: s.tasks } := by
        unfold runStepStart
        rw [hj]
        show (match (j.steps.find? (fun st2 => st2.step_id == sid)
                      : Option StepState) with
              | none => s
              | some st2 =>
                let s1 := updateStep s jid sid runG
                let s2 :=
                  { s1 with
                    active := s1.active.set st2.worker
                      (s1.active.get st2.worker + 1) }
                { s2 with tasks := ⟨jid, sid, st2.worker⟩ :: s2.tasks }) = _
        rw [hfind]
        rfl
      have hframe : WFrame s (updateStep s jid sid runG) :=
        wframe_updateStep s jid sid runG (fun _ => rfl) (fun _ => rfl)
      rw [hred]
      constructor
      · refine ⟨hinv.conc_pos, ?_, ?_, ?_, ?_, ?_, ?_, ?_⟩
        · intro w2
          show (s.active.set st.worker (s.active.get st.worker + 1)).get w2
              = (StepTask.mk jid sid st.worker :: s.tasks).countP
                  (fun t => t.w == w2)
          by_cases hw2 : w2 = st.worker
          · subst hw2
            rw [PerWorker.get_set_self]
            have hcnt : (StepTask.mk jid sid st.worker :: s.tasks).countP
                (fun t => t.w == st.worker)
                = s.tasks.countP (fun t => t.w == st.worker) + 1 := by
              simp [List.countP_cons]
            rw [hcnt, hinv.active_eq st.worker]
            rfl
          · rw [PerWorker.get_set_ne _ _ _ _ hw2]
            have hne : (st.worker == w2) = false :=
              beq_eq_false_iff_ne.mpr (fun h2 => hw2 h2.symm)
            have hcnt : (StepTask.mk jid sid st.worker :: s.tasks).countP
                (fun t => t.w == w2) = s.tasks.countP (fun t => t.w == w2) := by
              simp [List.countP_cons, hne]
            rw [hcnt, hinv.active_eq w2]
            rfl
        · intro w2
          show (s.active.set st.worker (s.active.get st.worker + 1)).get w2
              ≤ s.concurrency.get w2
          by_cases hw2 : w2 = st.worker
          · subst hw2
            rw [PerWorker.get_set_self, hstw]
            exact hlt
          · rw [PerWorker.get_set_ne _ _ _ _ hw2]
            exact hinv.active_le w2
        · show ((updateJob s jid (fun jx => updateStepIn jx sid runG)).jobs.map
              (fun j2 => j2.job_id)).Nodup
          rw [updateJob_jobIds s jid (fun jx => updateStepIn jx sid runG)
            (fun _ => rfl)]
          exact hinv.job_nodup
        · exact updateJob_steps_nodup s jid
            (fun jx => updateStepIn jx sid runG)
            (fun x => if x.step_id == sid then runG x else x)
            (fun _ => rfl) (ite_g_id sid runG (fun _ => rfl)) hinv.steps_nodup
        · intro t ht
          rcases List.mem_cons.mp ht with heq | hmem
          · subst heq
            exact (hframe jid sid).trans hsw
          · exact (hframe t.jid t.sid).trans (hinv.task_step t hmem)
        · intro j2 hj2 st2 hst2 hrun2
          have hj2m : j2 ∈ (updateJob s jid
              (fun jx => updateStepIn jx sid runG)).jobs := hj2
          obtain ⟨j0, hj0, heq⟩ := updateJob_mem _ _ _ j2 hj2m
          subst heq
          by_cases hc : (j0.job_id == jid) = true
          · rw [if_pos hc] at hst2 ⊢
            have hst2m : st2 ∈ j0.steps.map
                (fun x => if x.step_id == sid then runG x else x) := hst2
            obtain ⟨st0, hst0, heq2⟩ := List.mem_map.mp hst2m
            subst heq2
            by_cases hs : (st0.step_id == sid) = true
            · refine ⟨⟨jid, sid, st.worker⟩, List.mem_cons_self _ _, ?_, ?_⟩
              · show jid = (updateStepIn j0 sid runG).job_id
                exact (beq_iff_eq.mp hc).symm
              · show sid = (if st0.step_id == sid then runG st0 else st0).step_id
                rw [ite_g_id sid runG (fun _ => rfl) st0]
                exact (beq_iff_eq.mp hs).symm
            · rw [if_neg hs] at hrun2 ⊢
              obtain ⟨t, htmem, htj, hts⟩ :=
                hinv.running_task j0 hj0 st0 hst0 hrun2
              exact ⟨t, List.mem_cons_of_mem _ htmem, htj, hts⟩
          · rw [if_neg hc] at hst2 ⊢
            obtain ⟨t, htmem, htj, hts⟩ :=
              hinv.running_task j0 hj0 st2 hst2 hrun2
            exact ⟨t, List.mem_cons_of_mem _ htmem, htj, hts⟩
        · intro w2 item hitem
          exact (hframe item.1 item.2).trans (hinv.queue_worker w2 item hitem)
      · intro a b
        exact hframe a b

theorem inv_drainAux (w : Worker) :
    ∀ (fuel : Nat) (s : EngineState), EngineInv s →
      EngineInv (drainAux w fuel s) ∧ WFrame s (drainAux w fuel s) := by
  intro fuel
  induction fuel with
  | zero => intro s hinv; exact ⟨hinv, wframe_refl s⟩
  | succ n ih =>
    intro s hinv
    unfold drainAux
    by_cases hlt : s.active.get w < drainLimit s w
    · rw [if_pos hlt]
      cases hq : s.queues.get w with
      | nil => exact ⟨hinv, wframe_refl s⟩
      | cons item rest =>
        have hinv0 : EngineInv { s with queues := s.queues.set w rest } := by
          refine ⟨hinv.conc_pos, hinv.active_eq, hinv.active_le,
            hinv.job_nodup, hinv.steps_nodup, hinv.task_step,
            hinv.running_task, ?_⟩
          intro w2 item2 hmem
          by_cases hw2 : w2 = w
          · subst hw2
            rw [PerWorker.get_set_self] at hmem
            refine hinv.queue_worker w2 item2 ?_
            rw [hq]
            exact List.mem_cons_of_mem _ hmem
          · rw [PerWorker.get_set_ne _ _ _ _ hw2] at hmem
            exact hinv.queue_worker w2 item2 hmem
        have hws : stepWorker { s with queues := s.queues.set w rest }
            item.1 item.2 = some w := by
          refine hinv.queue_worker w item ?_
          rw [hq]
          exact List.mem_cons_self _ _
        have hlt2 : ({ s with queues := s.queues.set w rest } :
              EngineState).active.get w
            < ({ s with queues := s.queues.set w rest } :
              EngineState).concurrency.get w := by
          rw [drainLimit_eq s w (hinv.conc_pos w)] at hlt
          exact hlt
        obtain ⟨hinvR, hframeR⟩ :=
          inv_runStepStart { s with queues := s.queues.set w rest }
            item.1 item.2 w hinv0 hws hlt2
        obtain ⟨hinvD, hframeD⟩ :=
          ih (runStepStart { s with queues := s.queues.set w rest }
            item.1 item.2) hinvR
        exact ⟨hinvD,
          wframe_trans (wframe_trans (fun _ _ => rfl) hframeR) hframeD⟩
    · rw [if_neg hlt]
      exact ⟨hinv, wframe_refl s⟩

theorem inv_drainOwnerQueue (s : EngineState) (w : Worker)
    (hinv : EngineInv s) :
    EngineInv (drainOwnerQueue s w) ∧ WFrame s (drainOwnerQueue s w) :=
  inv_drainAux w (s.queues.get w).length s hinv

theorem inv_finalizeF (s : EngineState) (jid : Nat) (t : StepSt)
    (hinv : EngineInv s) : EngineInv (finalizeF s jid t) := by
  unfold finalizeF
  cases findJob s jid with
  | none => exact hinv
  | some j =>
    show EngineInv (if j.state.isTerminal = true then s
          else updateJob s jid (fun j0 => { j0 with state := t }))
    split
    · exact hinv
    · exact inv_updateJob s jid (fun j0 => { j0 with state := t })
        (fun x => x) (fun _ => rfl) (fun j0 => by simp) (fun _ => rfl)
        (fun _ => rfl) (fun _ h => h) hinv

theorem inv_scheduleStepBody (jid : Nat) (completed : List Nat)
    (s0 : EngineState) (st : StepState) (hinv : EngineInv s0)
    (hws : stepWorker s0 jid st.step_id = some st.worker) :
    EngineInv (scheduleStepBody jid completed s0 st)
      ∧ WFrame s0 (scheduleStepBody jid completed s0 st) := by
  have hinv1 : EngineInv (updateStep s0 jid st.step_id dispG) :=
    inv_updateStep s0 jid st.step_id dispG (fun _ => rfl) (fun _ => rfl)
      (fun _ h => StepSt.noConfusion h) hinv
  have hframe1 : WFrame s0 (updateStep s0 jid st.step_id dispG) :=
    wframe_updateStep s0 jid st.step_id dispG (fun _ => rfl) (fun _ => rfl)
  have hinv2 : EngineInv
      { updateStep s0 jid st.step_id dispG with
        queues := s0.queues.set st.worker
          (s0.queues.get st.worker ++ [(jid, st.step_id)]) } := by
    refine ⟨hinv1.conc_pos, hinv1.active_eq, hinv1.active_le,
      hinv1.job_nodup, hinv1.steps_nodup, hinv1.task_step,
      hinv1.running_task, ?_⟩
    intro w2 item hmem
    have hmem2 : item ∈ (s0.queues.set st.worker
        (s0.queues.get st.worker ++ [(jid, st.step_id)])).get w2 := hmem
    by_cases hw2 : w2 = st.worker
    · subst hw2
      rw [PerWorker.get_set_self] at hmem2
      rcases List.mem_append.mp hmem2 with hold | hnew
      · exact hinv1.queue_worker st.worker item hold
      · have heq : item = (jid, st.step_id) := List.mem_singleton.mp hnew
        subst heq
        exact (hframe1 jid st.step_id).trans hws
    · rw [PerWorker.get_set_ne _ _ _ _ hw2] at hmem2
      exact hinv1.queue_worker w2 item hmem2
  have hframe2 : WFrame s0
      { updateStep s0 jid st.step_id dispG with
        queues := s0.queues.set st.worker
          (s0.queues.get st.worker ++ [(jid, st.step_id)]) } :=
    fun a b => hframe1 a b
  unfold scheduleStepBody
  split
  · obtain ⟨hinv3, hframe3⟩ := inv_drainOwnerQueue
      { updateStep s0 jid st.step_id dispG with
        queues := s0.queues.set st.worker
          (s0.queues.get st.worker ++ [(jid, st.step_id)]) }
      st.worker hinv2
    exact ⟨hinv3, wframe_trans hframe2 hframe3⟩
  · exact ⟨hinv, wframe_refl s0⟩

theorem inv_schedule_fold (jid : Nat) (completed : List Nat)
    (s : EngineState) :
    ∀ (l : List StepState) (s0 : EngineState), EngineInv s0 → WFrame s s0 →
      (∀ st ∈ l, stepWorker s jid st.step_id = some st.worker) →
      EngineInv (l.foldl (scheduleStepBody jid completed) s0) := by
  intro l
  induction l with
  | nil => intro s0 hinv _ _; exact hinv
  | cons x rest ih =>
    intro s0 hinv hframe hl
    rw [List.foldl_cons]
    have hws : stepWorker s0 jid x.step_id = some x.worker := by
      rw [hframe jid x.step_id]
      exact hl x (List.mem_cons_self _ _)
    obtain ⟨hinv2, hframe2⟩ := inv_scheduleStepBody jid completed s0 x hinv hws
    exact ih (scheduleStepBody jid completed s0 x) hinv2
      (wframe_trans hframe hframe2)
      (fun st hst => hl st (List.mem_cons_of_mem _ hst))

theorem inv_scheduleRunnableSteps (s : EngineState) (jid : Nat)
    (hinv : EngineInv s) : EngineInv (scheduleRunnableSteps s jid) := by
  unfold scheduleRunnableSteps
  cases hj : findJob s jid with
  | none => exact hinv
  | some j =>
    show EngineInv
      (if j.steps.any (fun st => st.state == .failed) = true
       then finalizeF s jid .failed
       else if j.steps.any (fun st => st.state == .canceled) = true
       then finalizeF s jid .canceled
       else if (j.steps.filter (fun st => st.state == .queued)).isEmpty = true
       then finalizeF s jid .succeeded
       else (j.steps.filter (fun st => st.state == .queued)).foldl
         (scheduleStepBody jid
           ((j.steps.filter (fun st => st.state == .succeeded)).map
             (fun st => st.step_id))) s)
    split
    · exact inv_finalizeF s jid .failed hinv
    · split
      · exact inv_finalizeF s jid .canceled hinv
      · split
        · exact inv_finalizeF s jid .succeeded hinv
        · have hj2 : j ∈ s.jobs := List.mem_of_find?_eq_some hj
          have hnd := hinv.steps_nodup j hj2
          refine inv_schedule_fold jid _ s _ s hinv (wframe_refl s) ?_
          intro st hst
          have hstm := (List.mem_filter.mp hst).1
          have hfind2 : j.steps.find? (fun y => y.step_id == st.step_id)
              = some st :=
            find?_key_self (fun y => y.step_id) j.steps st hstm hnd
          unfold stepWorker findStep
          rw [hj]
          show (j.steps.find? (fun y => y.step_id == st.step_id)).map
              StepState.worker = some st.worker
          rw [hfind2, Option.map_some']

theorem inv_enqueueJob (s : EngineState) (jid : Nat) (hinv : EngineInv s) :
    EngineInv (enqueueJob s jid) := by
  unfold enqueueJob
  cases hj : findJob s jid with
  | none => exact hinv
  | some j =>
    show EngineInv
      (if (j.state == .queued || j.state == .running) = true
       then scheduleRunnableSteps
         (if (j.state == .queued) = true
          then updateJob s jid (fun j0 => { j0 with state := .running })
          else s) jid
       else s)
    split
    · split
      · refine inv_scheduleRunnableSteps _ jid ?_
        exact inv_updateJob s jid (fun j0 => { j0 with state := .running })
          (fun x => x) (fun _ => rfl) (fun j0 => by simp) (fun _ => rfl)
          (fun _ => rfl) (fun _ h => h) hinv
      · exact inv_scheduleRunnableSteps s jid hinv
    · exact hinv

theorem findJob_append (s : EngineState) (job : Job)
    (idx : List (String × Nat)) (a : Nat) (j : Job)
    (h : findJob s a = some j) :
    findJob { s with idemIndex := idx, jobs := s.jobs ++ [job] } a = some j := by
  show (s.jobs ++ [job]).find? (fun j2 => j2.job_id == a) = some j
  rw [List.find?_append,
    show s.jobs.find? (fun j2 => j2.job_id == a) = some j from h]
  rfl

theorem stepWorker_append (s : EngineState) (job : Job)
    (idx : List (String × Nat)) (a b : Nat) (w : Worker)
    (h : stepWorker s a b = some w) :
    stepWorker { s with idemIndex := idx, jobs := s.jobs ++ [job] } a b
      = some w := by
  unfold stepWorker findStep at h ⊢
  cases hj : findJob s a with
  | none =>
    rw [hj] at h
    simp at h
  | some j =>
    rw [hj] at h
    rw [findJob_append s job idx a j hj]
    exact h

theorem inv_jobs_append (s : EngineState) (job : Job)
    (idx : List (String × Nat)) (hinv : EngineInv s)
    (hfresh : findJob s job.job_id = none)
    (hnodup : (job.steps.map (fun st => st.step_id)).Nodup)
    (hnorun : ∀ st ∈ job.steps, st.state ≠ StepSt.running) :
    EngineInv { s with idemIndex := idx, jobs := s.jobs ++ [job] } := by
  refine ⟨hinv.conc_pos, hinv.active_eq, hinv.active_le, ?_, ?_, ?_, ?_, ?_⟩
  · show ((s.jobs ++ [job]).map (fun j => j.job_id)).Nodup
    rw [List.map_append, List.nodup_append]
    refine ⟨hinv.job_nodup, List.nodup_singleton _, ?_⟩
    intro a ha hb
    obtain ⟨j0, hj0, heq⟩ := List.mem_map.mp ha
    have hb2 : a = job.job_id := List.mem_singleton.mp hb
    have hne := List.find?_eq_none.mp hfresh j0 hj0
    rw [beq_iff_eq] at hne
    exact hne (heq.trans hb2)
  · intro j2 hj2
    have hj2m : j2 ∈ s.jobs ++ [job] := hj2
    rcases List.mem_append.mp hj2m with hold | hnew
    · exact hinv.steps_nodup j2 hold
    · have heq : j2 = job := List.mem_singleton.mp hnew
      subst heq
      exact hnodup
  · intro t ht
    exact stepWorker_append s job idx t.jid t.sid t.w (hinv.task_step t ht)
  · intro j2 hj2 st2 hst2 hrun2
    have hj2m : j2 ∈ s.jobs ++ [job] := hj2
    rcases List.mem_append.mp hj2m with hold | hnew
    · obtain ⟨t, htm, htj, hts⟩ := hinv.running_task j2 hold st2 hst2 hrun2
      exact ⟨t, htm, htj, hts⟩
    · have heq : j2 = job := List.mem_singleton.mp hnew
      subst heq
      exact absurd hrun2 (hnorun st2 hst2)
  · intro w item hitem
    exact stepWorker_append s job idx item.1 item.2 w
      (hinv.queue_worker w item hitem)

theorem inv_submitNew (s : EngineState) (p : Plan) (hinv : EngineInv s)
    (hfresh : findJob s p.job_id = none)
    (hnodup : (p.steps.map (fun ps => ps.step_id)).Nodup) :
    EngineInv (submitNew s p) := by
  have hnodup2 : ((p.steps.map initStep).map (fun st => st.step_id)).Nodup := by
    rw [List.map_map]
    have hco : ((fun st : StepState => st.step_id) ∘ initStep)
        = (fun ps : PlanStep => ps.step_id) := funext (fun _ => rfl)
    rw [hco]
    exact hnodup
  have hq2 : ∀ st ∈ p.steps.map initStep, st.state ≠ StepSt.running := by
    intro st hst
    obtain ⟨ps, hps, heq⟩ := List.mem_map.mp hst
    subst heq
    exact fun h => StepSt.noConfusion h
  unfold submitNew
  cases p.idempotency_key with
  | none =>
    refine inv_enqueueJob _ p.job_id ?_
    exact inv_jobs_append s _ s.idemIndex hinv hfresh hnodup2 hq2
  | some key =>
    refine inv_enqueueJob _ p.job_id ?_
    exact inv_jobs_append s _ ((key, p.job_id) :: s.idemIndex) hinv hfresh
      hnodup2 hq2

theorem inv_submitF (s : EngineState) (p : Plan) (hinv : EngineInv s)
    (hfresh : findJob s p.job_id = none)
    (hnodup : (p.steps.map (fun ps => ps.step_id)).Nodup) :
    EngineInv (submitF s p) := by
  unfold submitF
  cases p.idempotency_key with
  | none => exact inv_submitNew s p hinv hfresh hnodup
  | some key =>
    show EngineInv (if (assocLookup s.idemIndex key).isSome = true then s
        else submitNew s p)
    split
    · exact hinv
    · exact inv_submitNew s p hinv hfresh hnodup

theorem cancelStepPass_id (x : StepState) :
    (cancelStepPass x).step_id = x.step_id := by
  simp only [cancelStepPass]
  split
  · split
    · rfl
    · rfl
  · rfl

theorem cancelStepPass_w (x : StepState) :
    (cancelStepPass x).worker = x.worker := by
  simp only [cancelStepPass]
  split
  · split
    · rfl
    · rfl
  · rfl

theorem cancelStepPass_run (x : StepState) :
    (cancelStepPass x).state = .running → x.state = .running := by
  simp only [cancelStepPass]
  split
  · split
    · exact fun h => StepSt.noConfusion h
    · exact fun h => h
  · exact fun h => h

theorem inv_cancelF (s : EngineState) (jid : Nat) (hinv : EngineInv s) :
    EngineInv (cancelF s jid) := by
  unfold cancelF
  cases findJob s jid with
  | none => exact hinv
  | some j =>
    refine inv_scheduleRunnableSteps _ jid ?_
    exact inv_updateJob s jid
      (fun j0 => { j0 with steps := j0.steps.map cancelStepPass })
      cancelStepPass (fun _ => rfl) (fun _ => rfl) cancelStepPass_id
      cancelStepPass_w cancelStepPass_run hinv

theorem resumeStepPass_id (x : StepState) :
    (resumeStepPass x).step_id = x.step_id := by
  unfold resumeStepPass
  split
  · rfl
  · rfl

theorem resumeStepPass_w (x : StepState) :
    (resumeStepPass x).worker = x.worker := by
  unfold resumeStepPass
  split
  · rfl
  · rfl

theorem resumeStepPass_run (x : StepState) :
    (resumeStepPass x).state = .running → x.state = .running := by
  unfold resumeStepPass
  split
  · exact fun h => StepSt.noConfusion h
  · exact fun h => h

theorem inv_resume_body (s0 : EngineState) (jid : Nat) (hinv : EngineInv s0) :
    EngineInv (match findJob s0 jid with
      | none => s0
      | some j =>
        if j.state == .queued || j.state == .running then
          enqueueJob
            (updateJob s0 jid
              (fun j0 => { j0 with steps := j0.steps.map resumeStepPass }))
            jid
        else s0) := by
  cases findJob s0 jid with
  | none => exact hinv
  | some j =>
    show EngineInv (if (j.state == .queued || j.state == .running) = true
        then enqueueJob (updateJob s0 jid
          (fun j0 => { j0 with steps := j0.steps.map resumeStepPass })) jid
        else s0)
    split
    · refine inv_enqueueJob _ jid ?_
      exact inv_updateJob s0 jid
        (fun j0 => { j0 with steps := j0.steps.map resumeStepPass })
        resumeStepPass (fun _ => rfl) (fun _ => rfl) resumeStepPass_id
        resumeStepPass_w resumeStepPass_run hinv
    · exact hinv

theorem inv_resumeF (s : EngineState) (hinv : EngineInv s) :
    EngineInv (resumeF s) := by
  unfold resumeF
  have hgen : ∀ (l : List Nat) (s0 : EngineState), EngineInv s0 →
      EngineInv (l.foldl (fun s1 jid => match findJob s1 jid with
        | none => s1
        | some j =>
          if j.state == .queued || j.state == .running then
            enqueueJob (updateJob s1 jid
              (fun j0 => { j0 with steps := j0.steps.map resumeStepPass })) jid
          else s1) s0) := by
    intro l
    induction l with
    | nil => intro s0 h; exact h
    | cons x rest ih =>
      intro s0 h
      rw [List.foldl_cons]
      exact ih _ (inv_resume_body s0 x h)
  exact hgen _ s hinv

theorem inv_deliverTail (s : EngineState) (t : StepTask) (hinv : EngineInv s)
    (ht : t ∈ s.tasks) (F : Job → Job) (gT : StepState → StepState)
    (hFid : ∀ j, (F j).job_id = j.job_id)
    (hFsteps : ∀ j, (F j).steps
      = j.steps.map (fun x => if x.step_id == t.sid then gT x else x))
    (hgid : ∀ x, (gT x).step_id = x.step_id)
    (hgw : ∀ x, (gT x).worker = x.worker)
    (hgnr : ∀ x, (gT x).state ≠ StepSt.running) :
    EngineInv (deliverFinally
      (updateJob
        { s with tasks := s.tasks.eraseP (fun tk => tk.jid == t.jid && tk.sid == t.sid) }
        t.jid F)
      t.jid t.sid) := by
  have hws0 : stepWorker s t.jid t.sid = some t.w := hinv.task_step t ht
  have hpt : (fun tk : StepTask => tk.jid == t.jid && tk.sid == t.sid) t
      = true := by simp
  obtain ⟨a2, l1, l2, hl1, hpa2, hdecomp, herase⟩ :=
    @List.exists_of_eraseP StepTask
      (fun tk => tk.jid == t.jid && tk.sid == t.sid) s.tasks t ht hpt
  have hpa2i : a2.jid = t.jid ∧ a2.sid = t.sid := by
    rw [Bool.and_eq_true] at hpa2
    exact ⟨beq_iff_eq.mp hpa2.1, beq_iff_eq.mp hpa2.2⟩
  have ha2mem : a2 ∈ s.tasks := by
    rw [hdecomp]
    exact List.mem_append.mpr (Or.inr (List.mem_cons_self _ _))
  have ha2w : a2.w = t.w := by
    have hws2 := hinv.task_step a2 ha2mem
    rw [hpa2i.1, hpa2i.2, hws0] at hws2
    exact (Option.some.inj hws2).symm
  set sE : EngineState := { s with tasks := s.tasks.eraseP (fun tk => tk.jid == t.jid && tk.sid == t.sid) } with hsE
  set sC : EngineState := updateJob sE t.jid F with hsC
  have hframeC : WFrame s sC := fun a b =>
    stepWorker_updateJob sE t.jid F
      (fun x => if x.step_id == t.sid then gT x else x) hFid hFsteps
      (ite_g_id t.sid gT hgid) (ite_g_w t.sid gT hgw) a b
  have hmapC : (findStep sC t.jid t.sid).map StepState.worker = some t.w :=
    (hframeC t.jid t.sid).trans hws0
  obtain ⟨st2, hfindC, hw2⟩ := Option.map_eq_some'.mp hmapC
  have hredF : deliverFinally sC t.jid t.sid
      = scheduleRunnableSteps
          (drainOwnerQueue
            { sC with active := sC.active.set t.w (sC.active.get t.w - 1) }
            t.w)
          t.jid := by
    unfold deliverFinally
    rw [hfindC]
    show scheduleRunnableSteps
        (drainOwnerQueue
          { sC with active := sC.active.set st2.worker (sC.active.get st2.worker - 1) }
          st2.worker)
        t.jid = _
    rw [hw2]
  rw [hredF]
  have hinvD : EngineInv
      { sC with active := sC.active.set t.w (sC.active.get t.w - 1) } := by
    refine ⟨hinv.conc_pos, ?_, ?_, ?_, ?_, ?_, ?_, ?_⟩
    · intro w2
      show (s.active.set t.w (s.active.get t.w - 1)).get w2
          = (s.tasks.eraseP
              (fun tk => tk.jid == t.jid && tk.sid == t.sid)).countP
              (fun tk => tk.w == w2)
      rw [herase, List.countP_append]
      have hae2 : s.active.get w2 = s.tasks.countP (fun tk => tk.w == w2) :=
        hinv.active_eq w2
      by_cases hw2 : w2 = t.w
      · subst hw2
        rw [PerWorker.get_set_self]
        have hq2a : (a2.w == t.w) = true := beq_iff_eq.mpr (ha2w)
        have horig : s.tasks.countP (fun tk => tk.w == t.w)
            = l1.countP (fun tk => tk.w == t.w)
              + (l2.countP (fun tk => tk.w == t.w) + 1) := by
          rw [hdecomp, List.countP_append]
          simp [List.countP_cons, hq2a]
        omega
      · rw [PerWorker.get_set_ne _ _ _ _ hw2]
        have hq2a : (a2.w == w2) = false :=
          beq_eq_false_iff_ne.mpr (fun h => hw2 ((h.symm).trans ha2w))
        have horig : s.tasks.countP (fun tk => tk.w == w2)
            = l1.countP (fun tk => tk.w == w2)
              + l2.countP (fun tk => tk.w == w2) := by
          rw [hdecomp, List.countP_append]
          simp [List.countP_cons, hq2a]
        omega
    · intro w2
      show (s.active.set t.w (s.active.get t.w - 1)).get w2
          ≤ s.concurrency.get w2
      by_cases hw2 : w2 = t.w
      · subst hw2
        rw [PerWorker.get_set_self]
        exact le_trans (Nat.sub_le _ _) (hinv.active_le t.w)
      · rw [PerWorker.get_set_ne _ _ _ _ hw2]
        exact hinv.active_le w2
    · show ((updateJob sE t.jid F).jobs.map (fun j => j.job_id)).Nodup
      rw [updateJob_jobIds sE t.jid F hFid]
      exact hinv.job_nodup
    · exact updateJob_steps_nodup sE t.jid F
        (fun x => if x.step_id == t.sid then gT x else x) hFsteps
        (ite_g_id t.sid gT hgid) hinv.steps_nodup
    · intro tk htk
      have htk2 : tk ∈ s.tasks.eraseP
          (fun tk2 => tk2.jid == t.jid && tk2.sid == t.sid) := htk
      have htk3 : tk ∈ s.tasks := List.mem_of_mem_eraseP htk2
      exact (hframeC tk.jid tk.sid).trans (hinv.task_step tk htk3)
    · intro j2 hj2 st3 hst3 hrun3
      have hj2m : j2 ∈ (updateJob sE t.jid F).jobs := hj2
      obtain ⟨j0, hj0, heq⟩ := updateJob_mem sE t.jid F j2 hj2m
      subst heq
      have hj0m : j0 ∈ s.jobs := hj0
      by_cases hc : (j0.job_id == t.jid) = true
      · rw [if_pos hc] at hst3 ⊢
        rw [hFsteps j0] at hst3
        obtain ⟨st0, hst0, heq2⟩ := List.mem_map.mp hst3
        subst heq2
        by_cases hs : (st0.step_id == t.sid) = true
        · rw [if_pos hs] at hrun3
          exact absurd hrun3 (hgnr st0)
        · rw [if_neg hs] at hrun3 ⊢
          obtain ⟨tk, htkm, htj, hts⟩ :=
            hinv.running_task j0 hj0m st0 hst0 hrun3
          refine ⟨tk, ?_, by rw [hFid]; exact htj, hts⟩
          show tk ∈ s.tasks.eraseP
            (fun tk2 => tk2.jid == t.jid && tk2.sid == t.sid)
          rw [herase]
          have htkm2 : tk ∈ l1 ++ a2 :: l2 := by
            rw [← hdecomp]
            exact htkm
          rcases List.mem_append.mp htkm2 with h1 | h2
          · exact List.mem_append.mpr (Or.inl h1)
          · rcases List.mem_cons.mp h2 with heqa | h3
            · exfalso
              have hse : st0.step_id = t.sid := by
                rw [← hts, heqa, hpa2i.2]
              exact absurd hse (by simpa using hs)
            · exact List.mem_append.mpr (Or.inr h3)
      · rw [if_neg hc] at hst3 ⊢
        obtain ⟨tk, htkm, htj, hts⟩ :=
          hinv.running_task j0 hj0m st3 hst3 hrun3
        refine ⟨tk, ?_, htj, hts⟩
        show tk ∈ s.tasks.eraseP
          (fun tk2 => tk2.jid == t.jid && tk2.sid == t.sid)
        rw [herase]
        have htkm2 : tk ∈ l1 ++ a2 :: l2 := by
          rw [← hdecomp]
          exact htkm
        rcases List.mem_append.mp htkm2 with h1 | h2
        · exact List.mem_append.mpr (Or.inl h1)
        · rcases List.mem_cons.mp h2 with heqa | h3
          · exfalso
            have hje : j0.job_id = t.jid := by
              rw [← htj, heqa, hpa2i.1]
            exact absurd hje (by simpa using hc)
          · exact List.mem_append.mpr (Or.inr h3)
    · intro w2 item hitem
      have hitem2 : item ∈ s.queues.get w2 := hitem
      exact (hframeC item.1 item.2).trans (hinv.queue_worker w2 item hitem2)
  obtain ⟨hinvQ, hframeQ⟩ := inv_drainOwnerQueue
    { sC with active := sC.active.set t.w (sC.active.get t.w - 1) } t.w hinvD
  exact inv_scheduleRunnableSteps _ t.jid hinvQ

theorem inv_deliverF (s : EngineState) (t : StepTask) (oc : Outcome)
    (hinv : EngineInv s) (ht : t ∈ s.tasks) :
    EngineInv (deliverF s t.jid t.sid oc) := by
  have hws0 : stepWorker s t.jid t.sid = some t.w := hinv.task_step t ht
  unfold stepWorker findStep at hws0
  cases hj : findJob s t.jid with
  | none =>
    rw [hj] at hws0
    simp at hws0
  | some j =>
    rw [hj] at hws0
    have hq2 : (j.steps.find? (fun st => st.step_id == t.sid)).map
        StepState.worker = some t.w := hws0
    cases hfind : j.steps.find? (fun st => st.step_id == t.sid) with
    | none =>
      rw [hfind] at hq2
      simp at hq2
    | some st =>
      unfold deliverF
      have hjE : findJob { s with tasks := s.tasks.eraseP (fun tk => tk.jid == t.jid && tk.sid == t.sid) } t.jid = some j := hj
      cases oc with
      | success data =>
        have hcore : deliverCore
              { s with tasks := s.tasks.eraseP (fun tk => tk.jid == t.jid && tk.sid == t.sid) }
              t.jid t.sid (.success data)
            = updateStep
              { s with tasks := s.tasks.eraseP (fun tk => tk.jid == t.jid && tk.sid == t.sid) }
              t.jid t.sid
              (fun x => { x with state := .succeeded, output := some data }) := by
          unfold deliverCore
          simp only [hjE, hfind]
        rw [hcore]
        exact inv_deliverTail s t hinv ht _
          (fun x => { x with state := .succeeded, output := some data })
          (fun _ => rfl) (fun _ => rfl) (fun _ => rfl) (fun _ => rfl)
          (fun _ h => StepSt.noConfusion h)
      | failure err =>
        by_cases hcanc : st.cancelRequested = true
        · have hcore : deliverCore
              { s with tasks := s.tasks.eraseP (fun tk => tk.jid == t.jid && tk.sid == t.sid) }
              t.jid t.sid (.failure err)
              = updateStep
                { s with tasks := s.tasks.eraseP (fun tk => tk.jid == t.jid && tk.sid == t.sid) }
                t.jid t.sid
                (fun x => { x with state := .canceled, error := some "canceled" }) := by
            unfold deliverCore
            simp only [hjE, hfind]
            rw [if_pos hcanc]
          rw [hcore]
          exact inv_deliverTail s t hinv ht _
            (fun x => { x with state := .canceled, error := some "canceled" })
            (fun _ => rfl) (fun _ => rfl) (fun _ => rfl) (fun _ => rfl)
            (fun _ h => StepSt.noConfusion h)
        · by_cases hatt : st.attempt < max 1 j.retryMaxAttempts
          · have hcore : deliverCore
                { s with tasks := s.tasks.eraseP (fun tk => tk.jid == t.jid && tk.sid == t.sid) }
                t.jid t.sid (.failure err)
                = updateStep
                  { s with tasks := s.tasks.eraseP (fun tk => tk.jid == t.jid && tk.sid == t.sid) }
                  t.jid t.sid
                  (fun x => { x with state := .queued, error := some err.message }) := by
              unfold deliverCore
              simp only [hjE, hfind]
              rw [if_neg hcanc, if_pos hatt]
            rw [hcore]
            exact inv_deliverTail s t hinv ht _
              (fun x => { x with state := .queued, error := some err.message })
              (fun _ => rfl) (fun _ => rfl) (fun _ => rfl) (fun _ => rfl)
              (fun _ h => StepSt.noConfusion h)
          · have hcore : deliverCore
                { s with tasks := s.tasks.eraseP (fun tk => tk.jid == t.jid && tk.sid == t.sid) }
                t.jid t.sid (.failure err)
                = updateJob
                  { s with tasks := s.tasks.eraseP (fun tk => tk.jid == t.jid && tk.sid == t.sid) }
                  t.jid (failStepIn t.sid err.message) := by
              unfold deliverCore
              simp only [hjE, hfind]
              rw [if_neg hcanc, if_neg hatt]
            rw [hcore]
            exact inv_deliverTail s t hinv ht (failStepIn t.sid err.message)
              (fun x => { x with state := .failed, error := some err.message })
              (fun _ => rfl) (fun _ => rfl) (fun _ => rfl) (fun _ => rfl)
              (fun _ h => StepSt.noConfusion h)

theorem inv_engineStep {s s2 : EngineState} (hinv : EngineInv s)
    (h : EngineStep s s2) : EngineInv s2 := by
  cases h with
  | submit p hfresh hnodup => exact inv_submitF s p hinv hfresh hnodup
  | deliver t oc ht => exact inv_deliverF s t oc hinv ht
  | cancel jid => exact inv_cancelF s jid hinv
  | resume => exact inv_resumeF s hinv

theorem inv_engineInit (mc pc : Option Nat) : EngineInv (engineInit mc pc) := by
  refine ⟨?_, ?_, ?_, ?_, ?_, ?_, ?_, ?_⟩
  · intro w
    cases w
    · exact le_refl 1
    · exact le_max_left 1 _
    · exact le_max_left 1 _
  · intro w
    cases w <;> rfl
  · intro w
    cases w
    · exact Nat.zero_le _
    · exact Nat.zero_le _
    · exact Nat.zero_le _
  · exact List.nodup_nil
  · intro j hj
    cases hj
  · intro t ht
    cases ht
  · intro j hj _ _ _
    cases hj
  · intro w item hitem
    cases w <;> cases hitem

theorem reachable_inv {s : EngineState} (h : EngineReachable s) :
    EngineInv s := by
  induction h with
  | init mc pc => exact inv_engineInit mc pc
  | step hr hstep ih => exact inv_engineStep ih hstep

theorem runningCount_le (s : EngineState) (hinv : EngineInv s) (w : Worker) :
    runningCount s w ≤ countT s w := by
  have hnd : (runningPairs s w).Nodup := by
    unfold runningPairs
    rw [List.nodup_flatMap]
    constructor
    · intro j hj
      have hndst : j.steps.Nodup :=
        List.Nodup.of_map _ (hinv.steps_nodup j hj)
      refine List.Nodup.map_on ?_ (List.Nodup.filter _ hndst)
      intro a ha b hb hab
      have hids : a.step_id = b.step_id := congrArg Prod.snd hab
      exact List.inj_on_of_nodup_map (hinv.steps_nodup j hj)
        (List.mem_of_mem_filter ha) (List.mem_of_mem_filter hb) hids
    · have hpw : s.jobs.Pairwise (fun a b => a.job_id ≠ b.job_id) :=
        List.pairwise_map.mp hinv.job_nodup
      refine List.Pairwise.imp ?_ hpw
      intro a b hne
      intro x hxa hxb
      obtain ⟨sa, hsa, heqa⟩ := List.mem_map.mp hxa
      obtain ⟨sb, hsb, heqb⟩ := List.mem_map.mp hxb
      have h1 : a.job_id = x.1 := congrArg Prod.fst heqa
      have h2 : b.job_id = x.1 := congrArg Prod.fst heqb
      exact hne (h1.trans h2.symm)
  have hsub : ∀ pr ∈ runningPairs s w,
      pr ∈ (s.tasks.filter (fun tk => tk.w == w)).map
        (fun tk => (tk.jid, tk.sid)) := by
    intro pr hpr
    unfold runningPairs at hpr
    rw [List.mem_flatMap] at hpr
    obtain ⟨j, hj, hprin⟩ := hpr
    obtain ⟨st, hstf, heq⟩ := List.mem_map.mp hprin
    subst heq
    have hstm := List.mem_filter.mp hstf
    have hcond : (st.state == StepSt.running && st.worker == w) = true :=
      hstm.2
    rw [Bool.and_eq_true] at hcond
    have hrun : st.state = .running := beq_iff_eq.mp hcond.1
    have hw : st.worker = w := beq_iff_eq.mp hcond.2
    obtain ⟨tk, htk, htj, hts⟩ := hinv.running_task j hj st hstm.1 hrun
    have hjid : findJob s j.job_id = some j :=
      find?_key_self (fun j2 : Job => j2.job_id) s.jobs j hj hinv.job_nodup
    have hfindst : j.steps.find? (fun y => y.step_id == st.step_id)
        = some st :=
      find?_key_self (fun y : StepState => y.step_id) j.steps st hstm.1
        (hinv.steps_nodup j hj)
    have hsw : stepWorker s j.job_id st.step_id = some st.worker := by
      unfold stepWorker findStep
      rw [hjid]
      show (j.steps.find? (fun y => y.step_id == st.step_id)).map
          StepState.worker = some st.worker
      rw [hfindst, Option.map_some']
    have htkw := hinv.task_step tk htk
    rw [htj, hts, hsw] at htkw
    have htw : tk.w = st.worker := (Option.some.inj htkw).symm
    refine List.mem_map.mpr ⟨tk, List.mem_filter.mpr ⟨htk, ?_⟩, ?_⟩
    · exact beq_iff_eq.mpr (htw.trans hw)
    · rw [htj, hts]
  have hlen := (List.Nodup.subperm hnd
    (fun pr hpr => hsub pr hpr)).length_le
  calc runningCount s w
      = (runningPairs s w).length := rfl
    _ ≤ ((s.tasks.filter (fun tk => tk.w == w)).map
          (fun tk => (tk.jid, tk.sid))).length := hlen
    _ = (s.tasks.filter (fun tk => tk.w == w)).length :=
        List.length_map _ _
    _ = countT s w := (List.countP_eq_length_filter _ _).symm

/-- C6 (confirmed).  In every reachable engine state and for every worker,
the number of steps simultaneously in state `running` on that worker never
exceeds `concurrency[worker]` (and neither does the worker's active
count): the drain loop starts a step only while the active count is
strictly below the limit, the count is incremented when a step starts
running and decremented when its request settles, and every running step
is backed by an in-flight request. -/
theorem concurrency_bound :
    ∀ s : EngineState, EngineReachable s → ∀ w : Worker,
      runningCount s w ≤ s.concurrency.get w
      ∧ s.active.get w ≤ s.concurrency.get w := by
  intro s h w
  have hinv := reachable_inv h
  constructor
  · calc runningCount s w
        ≤ countT s w := runningCount_le s hinv w
      _ = s.active.get w := (hinv.active_eq w).symm
      _ ≤ s.concurrency.get w := hinv.active_le w
  · exact hinv.active_le w

/-- Witness for `concurrency_bound`: the bound at a freshly constructed
engine for the media worker. -/
theorem concurrency_bound_witness :
    runningCount (engineInit none none) Worker.media
        ≤ (engineInit none none).concurrency.get Worker.media
      ∧ (engineInit none none).active.get Worker.media
        ≤ (engineInit none none).concurrency.get Worker.media :=
  concurrency_bound (engineInit none none) (EngineReachable.init none none)
    Worker.media
